import Mathlib

/-!
Verification of the search and indexing subsystem of the gentleman-book-mcp
repository (Go).  Go strings are modelled as lists of characters (`Str`);
Go `int` as `Int`/`Nat`; `float64` relevance scores as `ℚ` (exact) and
similarity scores as `ℝ`; fallible operations return `Option`/`Except`,
with `Option.none` additionally modelling a Go runtime panic where noted.
Unicode character classes (`\p{L}`, `\p{N}`, `unicode.IsSpace`, case
mapping) are modelled by their ASCII restrictions.
-/

namespace BookMCP

/-- Go strings, modelled as lists of characters. -/
abbrev Str := List Char

/-- Character class of Go `unicode.IsSpace` (`strings.TrimSpace`,
`strings.Fields`), restricted to ASCII: space, `\t`, `\n`, `\v`, `\f`, `\r`. -/
def goIsSpace (c : Char) : Bool :=
  c = ' ' || c = '\t' || c = '\n' || c = '\x0b' || c = '\x0c' || c = '\r'

/-- Character class `\s` of Go regular expressions: `[\t\n\f\r ]`. -/
def reIsSpace (c : Char) : Bool :=
  c = ' ' || c = '\t' || c = '\n' || c = '\x0c' || c = '\r'

/-- Go `strings.TrimSpace`: drop leading and trailing whitespace. -/
def trimSpace (l : Str) : Str :=
  ((l.dropWhile goIsSpace).reverse.dropWhile goIsSpace).reverse

/-- `strings.ReplaceAll(tagID, " ", "-")` acts characterwise. -/
def spaceToHyphen (c : Char) : Char := if c = ' ' then '-' else c

/-- Characters kept by the replacement of regex `[^\p{L}\p{N}-]` with the
empty string (ASCII restriction of the Unicode classes). -/
def isTagKeep (c : Char) : Bool := c.isAlpha || c.isDigit || c = '-'

/-- Replacement of regex `-+` by `"-"`: collapse every run of hyphens to a
single hyphen. -/
def collapseHyphens : Str → Str
  | [] => []
  | [c] => [c]
  | a :: b :: rest =>
    if a = '-' ∧ b = '-' then collapseHyphens (b :: rest)
    else a :: collapseHyphens (b :: rest)

/-- `strings.Trim(tagID, "-")`: drop leading and trailing hyphens. -/
def trimHyphens (l : Str) : Str :=
  ((l.dropWhile (· = '-')).reverse.dropWhile (· = '-')).reverse

/-- `Parser.generateTagID` (src/internal/book/parser.go): lowercase the
title, replace spaces by hyphens, remove characters other than
letters/digits/hyphens, collapse hyphen runs, trim leading and trailing
hyphens. -/
def generateTagID (l : Str) : Str :=
  trimHyphens (collapseHyphens (((l.map Char.toLower).map spaceToHyphen).filter isTagKeep))

/-! Helper lemmas about characters and generic list operations. -/

theorem charOfNat_toNat_lt123 : ∀ m < 123, (Char.ofNat m).toNat = m := by decide

theorem toLower_toLower (c : Char) : c.toLower.toLower = c.toLower := by
  simp only [Char.toLower]
  by_cases h : c.toNat ≥ 65 ∧ c.toNat ≤ 90
  · rw [if_pos h]
    have h1 : (Char.ofNat (c.toNat + 32)).toNat = c.toNat + 32 :=
      charOfNat_toNat_lt123 _ (by omega)
    rw [h1, if_neg (by omega)]
  · rw [if_neg h, if_neg h]

theorem dropWhile_isSuffix {α : Type} (p : α → Bool) : ∀ l : List α, l.dropWhile p <:+ l
  | [] => List.suffix_rfl
  | a :: t => by
    by_cases h : p a
    · simpa [List.dropWhile, h] using (dropWhile_isSuffix p t).trans (List.suffix_cons a t)
    · simp [List.dropWhile, h]

theorem doubleDropWhile_isInfix {α : Type} (p : α → Bool) (l : List α) :
    ((l.dropWhile p).reverse.dropWhile p).reverse <:+: l := by
  have h1 : l.dropWhile p <:+ l := dropWhile_isSuffix p l
  have h2 : (l.dropWhile p).reverse.dropWhile p <:+ (l.dropWhile p).reverse :=
    dropWhile_isSuffix p _
  have h3 : ((l.dropWhile p).reverse.dropWhile p).reverse <+: l.dropWhile p := by
    rw [← List.reverse_suffix, List.reverse_reverse]
    exact h2
  exact h3.isInfix.trans h1.isInfix

theorem dropWhile_dropWhile {α : Type} (p : α → Bool) :
    ∀ l : List α, (l.dropWhile p).dropWhile p = l.dropWhile p
  | [] => rfl
  | a :: t => by
    by_cases h : p a
    · simpa [List.dropWhile, h] using dropWhile_dropWhile p t
    · simp [List.dropWhile, h]

theorem dropWhile_head_not {α : Type} (p : α → Bool) :
    ∀ l : List α, ∀ a, (l.dropWhile p).head? = some a → p a = false
  | [], a => by simp [List.dropWhile]
  | b :: t, a => by
    by_cases h : p b
    · simpa [List.dropWhile, h] using dropWhile_head_not p t a
    · simp only [List.dropWhile, h]
      intro hb
      simp only [Bool.not_eq_true] at h
      simp only [List.head?, Option.some.injEq] at hb
      exact hb ▸ h

theorem dropWhile_eq_self_of_head {α : Type} (p : α → Bool) (l : List α)
    (h : ∀ a, l.head? = some a → p a = false) : l.dropWhile p = l := by
  cases l with
  | nil => rfl
  | cons a t => simp [List.dropWhile, h a rfl]

theorem isPrefix_head? {α : Type} {l₁ l₂ : List α} (h : l₁ <+: l₂) (hne : l₁ ≠ []) :
    l₂.head? = l₁.head? := by
  obtain ⟨t, rfl⟩ := h
  cases l₁ with
  | nil => exact absurd rfl hne
  | cons a t' => rfl

theorem doubleDropWhile_idem {α : Type} (p : α → Bool) (l : List α) :
    (((((l.dropWhile p).reverse.dropWhile p).reverse).dropWhile p).reverse.dropWhile p).reverse
      = ((l.dropWhile p).reverse.dropWhile p).reverse := by
  set M := l.dropWhile p with hM
  set N := M.reverse.dropWhile p with hN
  have hTl : N.reverse.dropWhile p = N.reverse := by
    apply dropWhile_eq_self_of_head
    intro a ha
    rcases List.eq_nil_or_concat N with hnil | ⟨_, _, _⟩
    · rw [hnil] at ha; simp at ha
    · have hpre : N.reverse <+: M := by
        have h2 : N <:+ M.reverse := hN ▸ dropWhile_isSuffix p M.reverse
        rw [← List.reverse_suffix, List.reverse_reverse]
        exact h2
      have hne : N.reverse ≠ [] := by
        intro hc
        rw [hc] at ha; simp at ha
      have := isPrefix_head? hpre hne
      rw [← this] at ha
      exact dropWhile_head_not p l a (hM ▸ ha)
  rw [hTl, List.reverse_reverse, dropWhile_dropWhile]

/-- If a function fixes every member, mapping it leaves the list unchanged. -/
theorem map_eq_self_of_mem {α : Type} {f : α → α} :
    ∀ {l : List α}, (∀ a ∈ l, f a = a) → l.map f = l
  | [], _ => rfl
  | a :: t, h => by
    simp only [List.map, List.cons.injEq]
    exact ⟨h a (by simp), map_eq_self_of_mem fun x hx => h x (by simp [hx])⟩

/-! Lemmas about `collapseHyphens`. -/

theorem collapseHyphens_head? : ∀ (b : Char) (rest : Str),
    (collapseHyphens (b :: rest)).head? = some b
  | b, [] => rfl
  | b, c :: r => by
    by_cases h : b = '-' ∧ c = '-'
    · rw [show collapseHyphens (b :: c :: r) = collapseHyphens (c :: r) from by
        simp [collapseHyphens, h]]
      rw [collapseHyphens_head? c r, h.1, h.2]
    · simp [collapseHyphens, h]

theorem collapseHyphens_chain : ∀ l : Str,
    List.Chain' (fun a b => ¬(a = '-' ∧ b = '-')) (collapseHyphens l)
  | [] => by simp [collapseHyphens]
  | [c] => by simp [collapseHyphens]
  | a :: b :: rest => by
    by_cases h : a = '-' ∧ b = '-'
    · simpa [collapseHyphens, h] using collapseHyphens_chain (b :: rest)
    · rw [show collapseHyphens (a :: b :: rest) = a :: collapseHyphens (b :: rest) from by
        simp [collapseHyphens, h]]
      rw [List.chain'_cons']
      refine ⟨?_, collapseHyphens_chain (b :: rest)⟩
      intro y hy
      rw [collapseHyphens_head? b rest] at hy
      cases hy
      exact h

theorem mem_collapseHyphens : ∀ {l : Str} {x : Char}, x ∈ collapseHyphens l → x ∈ l
  | [], x, h => by simp [collapseHyphens] at h
  | [c], x, h => by simpa [collapseHyphens] using h
  | a :: b :: rest, x, h => by
    by_cases hab : a = '-' ∧ b = '-'
    · rw [show collapseHyphens (a :: b :: rest) = collapseHyphens (b :: rest) from by
        simp [collapseHyphens, hab]] at h
      exact List.mem_cons_of_mem a (mem_collapseHyphens h)
    · rw [show collapseHyphens (a :: b :: rest) = a :: collapseHyphens (b :: rest) from by
        simp [collapseHyphens, hab]] at h
      rcases List.mem_cons.mp h with h | h
      · exact h ▸ List.mem_cons_self a _
      · exact List.mem_cons_of_mem a (mem_collapseHyphens h)

theorem collapseHyphens_eq_self : ∀ {l : Str},
    List.Chain' (fun a b => ¬(a = '-' ∧ b = '-')) l → collapseHyphens l = l
  | [], _ => rfl
  | [c], _ => rfl
  | a :: b :: rest, h => by
    have hab : ¬(a = '-' ∧ b = '-') := (List.chain'_cons.mp h).1
    rw [show collapseHyphens (a :: b :: rest) = a :: collapseHyphens (b :: rest) from by
      simp [collapseHyphens, hab]]
    rw [collapseHyphens_eq_self (List.chain'_cons.mp h).2]

theorem mem_trimHyphens {x : Char} {l : Str} (h : x ∈ trimHyphens l) : x ∈ l :=
  (doubleDropWhile_isInfix _ l).subset h

theorem trimHyphens_trimHyphens (l : Str) : trimHyphens (trimHyphens l) = trimHyphens l :=
  doubleDropWhile_idem _ l

theorem collapseHyphens_cons_eq (c : Char) (F : Str) :
    collapseHyphens (c :: F) =
      if c = '-' ∧ F.head? = some '-' then collapseHyphens F
      else c :: collapseHyphens F := by
  cases F with
  | nil => simp [collapseHyphens]
  | cons d F' =>
    by_cases h : c = '-' ∧ d = '-'
    · rw [if_pos (by simp [h.1, h.2])]
      simp [collapseHyphens, h]
    · rw [if_neg (by simpa using h)]
      simp [collapseHyphens, h]

theorem dropWhile_append_pos {α : Type} (p : α → Bool) :
    ∀ (X Y : List α), X.dropWhile p = [] → (X ++ Y).dropWhile p = Y.dropWhile p
  | [], Y, _ => by simp
  | a :: X', Y, h => by
    by_cases hp : p a
    · rw [show ((a :: X') ++ Y).dropWhile p = (X' ++ Y).dropWhile p from by
        simp [List.dropWhile, hp]]
      rw [show (a :: X').dropWhile p = X'.dropWhile p from by simp [List.dropWhile, hp]] at h
      exact dropWhile_append_pos p X' Y h
    · rw [show (a :: X').dropWhile p = a :: X' from by simp [List.dropWhile, hp]] at h
      simp at h

theorem dropWhile_append_neg {α : Type} (p : α → Bool) :
    ∀ (X Y : List α), X.dropWhile p ≠ [] → (X ++ Y).dropWhile p = X.dropWhile p ++ Y
  | [], Y, h => by simp at h
  | a :: X', Y, h => by
    by_cases hp : p a
    · rw [show ((a :: X') ++ Y).dropWhile p = (X' ++ Y).dropWhile p from by
        simp [List.dropWhile, hp]]
      rw [show (a :: X').dropWhile p = X'.dropWhile p from by simp [List.dropWhile, hp]] at h ⊢
      exact dropWhile_append_neg p X' Y h
    · rw [show ((a :: X') ++ Y).dropWhile p = a :: (X' ++ Y) from by simp [List.dropWhile, hp]]
      rw [show (a :: X').dropWhile p = a :: X' from by simp [List.dropWhile, hp]]
      rfl

theorem trimHyphens_hyphen_cons (X : Str) : trimHyphens ('-' :: X) = trimHyphens X := by
  unfold trimHyphens
  rw [show ('-' :: X).dropWhile (· = '-') = X.dropWhile (· = '-') from by
    simp [List.dropWhile]]

theorem trimHyphens_append_hyphen (X : Str) : trimHyphens (X ++ ['-']) = trimHyphens X := by
  unfold trimHyphens
  by_cases h : X.dropWhile (· = '-') = []
  · rw [dropWhile_append_pos _ X ['-'] h, h]
    simp [List.dropWhile]
  · rw [dropWhile_append_neg _ X ['-'] h]
    rw [List.reverse_append]
    rw [show (['-'].reverse ++ (X.dropWhile (· = '-')).reverse).dropWhile (· = '-') =
        ((X.dropWhile (· = '-')).reverse).dropWhile (· = '-') from by
      simp [List.dropWhile]]

theorem collapseHyphens_ne_nil (b : Char) (rest : Str) : collapseHyphens (b :: rest) ≠ [] := by
  intro h
  have := collapseHyphens_head? b rest
  rw [h] at this
  simp at this

theorem collapseHyphens_snoc : ∀ F : Str,
    collapseHyphens (F ++ ['-']) =
      if (collapseHyphens F).getLast? = some '-' then collapseHyphens F
      else collapseHyphens F ++ ['-']
  | [] => by simp [collapseHyphens]
  | [c] => by
    by_cases h : c = '-'
    · subst h
      simp [collapseHyphens]
    · simp [collapseHyphens, h]
  | a :: b :: F'' => by
    have ih := collapseHyphens_snoc (b :: F'')
    by_cases hab : a = '-' ∧ b = '-'
    · rw [show (a :: b :: F'') ++ ['-'] = a :: b :: (F'' ++ ['-']) from by simp]
      rw [show collapseHyphens (a :: b :: (F'' ++ ['-'])) =
          collapseHyphens (b :: (F'' ++ ['-'])) from by simp [collapseHyphens, hab]]
      rw [show collapseHyphens (a :: b :: F'') = collapseHyphens (b :: F'') from by
        simp [collapseHyphens, hab]]
      rw [List.cons_append] at ih
      exact ih
    · rw [show (a :: b :: F'') ++ ['-'] = a :: b :: (F'' ++ ['-']) from by simp]
      rw [show collapseHyphens (a :: b :: (F'' ++ ['-'])) =
          a :: collapseHyphens (b :: (F'' ++ ['-'])) from by simp [collapseHyphens, hab]]
      rw [show collapseHyphens (a :: b :: F'') = a :: collapseHyphens (b :: F'') from by
        simp [collapseHyphens, hab]]
      rw [List.cons_append] at ih
      rw [ih]
      obtain ⟨y, ys, hy⟩ : ∃ y ys, collapseHyphens (b :: F'') = y :: ys := by
        cases hx : collapseHyphens (b :: F'') with
        | nil => exact absurd hx (collapseHyphens_ne_nil b F'')
        | cons y ys => exact ⟨y, ys, rfl⟩
      rw [hy]
      rw [List.getLast?_cons_cons]
      by_cases hl : (y :: ys).getLast? = some '-'
      · rw [if_pos hl, if_pos hl]
      · rw [if_neg hl, if_neg hl]
        rfl

theorem collapseHyphens_double : ∀ (A B : Str),
    collapseHyphens (A ++ '-' :: '-' :: B) = collapseHyphens (A ++ '-' :: B)
  | [], B => by simp [collapseHyphens]
  | a :: A', B => by
    rw [List.cons_append, List.cons_append]
    rw [collapseHyphens_cons_eq a (A' ++ '-' :: '-' :: B),
      collapseHyphens_cons_eq a (A' ++ '-' :: B)]
    have hhead : (A' ++ '-' :: '-' :: B).head? = (A' ++ '-' :: B).head? := by
      cases A' <;> simp
    rw [hhead, collapseHyphens_double A' B]

theorem trim_collapse_cons (F : Str) :
    trimHyphens (collapseHyphens ('-' :: F)) = trimHyphens (collapseHyphens F) := by
  rw [collapseHyphens_cons_eq]
  by_cases h : ('-' : Char) = '-' ∧ F.head? = some '-'
  · rw [if_pos h]
  · rw [if_neg h]
    exact trimHyphens_hyphen_cons _

theorem trim_collapse_snoc (F : Str) :
    trimHyphens (collapseHyphens (F ++ ['-'])) = trimHyphens (collapseHyphens F) := by
  rw [collapseHyphens_snoc]
  by_cases h : (collapseHyphens F).getLast? = some '-'
  · rw [if_pos h]
  · rw [if_neg h]
    exact trimHyphens_append_hyphen _

/-- Idempotence of `generateTagID`, proved from the shape of its output:
all characters survive the lowercase/space/strip passes unchanged, no two
hyphens are adjacent, and no hyphen leads or trails. -/
theorem generateTagID_idem (l : Str) : generateTagID (generateTagID l) = generateTagID l := by
  set y := generateTagID l with hy
  have hmemF : ∀ c ∈ y, c ∈ ((l.map Char.toLower).map spaceToHyphen).filter isTagKeep := by
    intro c hc
    rw [hy] at hc
    exact mem_collapseHyphens (mem_trimHyphens hc)
  have hkeep : ∀ c ∈ y, isTagKeep c = true := fun c hc => List.of_mem_filter (hmemF c hc)
  have hfix : ∀ c ∈ y, Char.toLower c = c := by
    intro c hc
    have hmem : c ∈ (l.map Char.toLower).map spaceToHyphen :=
      List.mem_of_mem_filter (hmemF c hc)
    obtain ⟨b, hb, rfl⟩ := List.mem_map.mp hmem
    obtain ⟨a, ha, rfl⟩ := List.mem_map.mp hb
    by_cases hsp : Char.toLower a = ' '
    · rw [hsp]
      decide
    · rw [show spaceToHyphen (Char.toLower a) = Char.toLower a from by simp [spaceToHyphen, hsp]]
      exact toLower_toLower a
  have hnospace : ∀ c ∈ y, spaceToHyphen c = c := by
    intro c hc
    have hk := hkeep c hc
    have hcne : c ≠ ' ' := by
      intro hc'
      rw [hc'] at hk
      exact absurd hk (by decide)
    simp [spaceToHyphen, hcne]
  have hchain : List.Chain' (fun a b => ¬(a = '-' ∧ b = '-')) y := by
    rw [hy]
    exact List.Chain'.infix (collapseHyphens_chain _) (doubleDropWhile_isInfix _ _)
  calc generateTagID y
      = trimHyphens (collapseHyphens (((y.map Char.toLower).map spaceToHyphen).filter isTagKeep)) := rfl
    _ = trimHyphens (collapseHyphens (y.filter isTagKeep)) := by
        rw [map_eq_self_of_mem hfix, map_eq_self_of_mem hnospace]
    _ = trimHyphens (collapseHyphens y) := by rw [List.filter_eq_self.mpr hkeep]
    _ = trimHyphens y := by rw [collapseHyphens_eq_self hchain]
    _ = y := by rw [hy]; exact trimHyphens_trimHyphens _

/-- Modelled from the claim's wording, for the refinement comparison only:
"lowercasing it, collapsing whitespace runs to single hyphens, stripping
characters other than letters, digits and hyphens, and trimming
leading/trailing hyphens".  One maximal run of whitespace becomes one
hyphen. -/
def collapseWsRuns : Str → Str
  | [] => []
  | [a] => [if goIsSpace a then '-' else a]
  | a :: b :: rest =>
    if goIsSpace a ∧ goIsSpace b then collapseWsRuns (b :: rest)
    else (if goIsSpace a then '-' else a) :: collapseWsRuns (b :: rest)

/-- Modelled from the claim's wording ("the already-normalized form"). -/
def slugSpecNormalize (l : Str) : Str :=
  trimHyphens ((collapseWsRuns (l.map Char.toLower)).filter isTagKeep)

/-- C8, counterexample: slug derivation is not insensitive to general
whitespace.  The code hyphenates only space characters and strips all other
whitespace, so the heading text "a⟨tab⟩b" yields slug "ab", while the
claim-normalized form "a-b" yields slug "a-b". -/
theorem generateTagID_tab_whitespace_counterexample :
    generateTagID "a\tb".data = "ab".data ∧
    slugSpecNormalize "a\tb".data = "a-b".data ∧
    generateTagID (slugSpecNormalize "a\tb".data) = "a-b".data ∧
    generateTagID "a\tb".data ≠ generateTagID (slugSpecNormalize "a\tb".data) := by
  refine ⟨by decide, by decide, by decide, by decide⟩

theorem generateTagID_lower (s : Str) :
    generateTagID (s.map Char.toLower) = generateTagID s := by
  have h : List.map Char.toLower (List.map Char.toLower s) = List.map Char.toLower s :=
    map_eq_self_of_mem (fun a ha => by
      obtain ⟨b, _, rfl⟩ := List.mem_map.mp ha
      exact toLower_toLower b)
  unfold generateTagID
  rw [h]

theorem generateTagID_cons_space (s : Str) :
    generateTagID (' ' :: s) = generateTagID s := by
  have hlow : Char.toLower ' ' = ' ' := by decide
  have hsp : spaceToHyphen ' ' = '-' := by decide
  have hkeep : isTagKeep '-' = true := by decide
  unfold generateTagID
  simp only [List.map_cons, List.filter_cons, hlow, hsp, hkeep, if_true]
  exact trim_collapse_cons _

theorem generateTagID_snoc_space (s : Str) :
    generateTagID (s ++ [' ']) = generateTagID s := by
  have hlow : Char.toLower ' ' = ' ' := by decide
  have hsp : spaceToHyphen ' ' = '-' := by decide
  have hkeep : isTagKeep '-' = true := by decide
  unfold generateTagID
  simp only [List.map_append, List.map_cons, List.map_nil, List.filter_append,
    List.filter_cons, List.filter_nil, hlow, hsp, hkeep, if_true]
  exact trim_collapse_snoc _

theorem generateTagID_double_space (s₁ s₂ : Str) :
    generateTagID (s₁ ++ ' ' :: ' ' :: s₂) = generateTagID (s₁ ++ ' ' :: s₂) := by
  have hlow : Char.toLower ' ' = ' ' := by decide
  have hsp : spaceToHyphen ' ' = '-' := by decide
  have hkeep : isTagKeep '-' = true := by decide
  unfold generateTagID
  simp only [List.map_append, List.map_cons, List.filter_append, List.filter_cons,
    hlow, hsp, hkeep, if_true]
  rw [collapseHyphens_double]

/-- C8 (amended): slug derivation is idempotent for every input string, and
it is insensitive to letter case and to surrounding or repeated space
characters: lowercasing the input, adding a leading or trailing space, or
collapsing a repeated interior space never changes the slug — e.g.
slug(" Hexagonal  Architecture ") = slug("hexagonal-architecture") — but
whitespace other than the space character is stripped rather than collapsed
to hyphens. -/
theorem generateTagID_idempotent_and_example :
    (∀ s : Str, generateTagID (generateTagID s) = generateTagID s) ∧
    (∀ s : Str, generateTagID (s.map Char.toLower) = generateTagID s) ∧
    (∀ s : Str, generateTagID (' ' :: s) = generateTagID s) ∧
    (∀ s : Str, generateTagID (s ++ [' ']) = generateTagID s) ∧
    (∀ s₁ s₂ : Str, generateTagID (s₁ ++ ' ' :: ' ' :: s₂) = generateTagID (s₁ ++ ' ' :: s₂)) ∧
    generateTagID " Hexagonal  Architecture ".data = generateTagID "hexagonal-architecture".data :=
  ⟨generateTagID_idem, generateTagID_lower, generateTagID_cons_space,
    generateTagID_snoc_space, generateTagID_double_space, by decide⟩

/-! The section lookup of `Parser.GetSection` (src/internal/book/parser.go). -/

/-- `strings.Split(content, "\n")`. -/
def splitLines : Str → List Str
  | [] => [[]]
  | '\n' :: rest => [] :: splitLines rest
  | c :: rest =>
    match splitLines rest with
    | [] => [[c]]
    | h :: t => (c :: h) :: t

/-- The string built by appending `line + "\n"` for each accumulated line
(`strings.Builder` in `GetSection`). -/
def joinLinesNl : List Str → Str
  | [] => []
  | l :: rest => l ++ '\n' :: joinLinesNl rest

/-- Matching the Go regex `^#{1,6}\s+(.+)$` (or `^##\s+(.+)$` for the
chunker, via `countOk`) against one line: the leading run of `#` characters
must have an accepted length, at least one `\s` character must follow, and
the captured group is the rest of the line.  When the rest is all
whitespace, the regex engine backtracks one whitespace character into `.+`,
so the group is the final whitespace character (the line must then have at
least one `\s` left for `\s+`). -/
def parseHashHeader (countOk : Nat → Bool) (l : Str) : Option Str :=
  let hashes := l.takeWhile (· = '#')
  let rest := l.dropWhile (· = '#')
  if countOk hashes.length then
    let ws := rest.takeWhile reIsSpace
    let r := rest.dropWhile reIsSpace
    if ws.length = 0 then none
    else if r ≠ [] then some r
    else if 2 ≤ rest.length then some [rest.getLastD ' ']
    else none
  else none

/-- `^#{1,6}\s+(.+)$`, the heading pattern of `GetSection` and `Search`. -/
def headerText : Str → Option Str :=
  parseHashHeader (fun n => decide (1 ≤ n) && decide (n ≤ 6))

/-- `^##\s+(.+)$` (multiline), the section pattern of `splitIntoChunks`. -/
def h2Text : Str → Option Str := parseHashHeader (fun n => n == 2)

/-- Does this line's heading (if any) derive the requested tag? -/
def lineMatches (tid : Str) (l : Str) : Bool :=
  match headerText l with
  | some t => generateTagID t = tid
  | none => false

/-- Is this line a heading line (`^#{1,6}\s+(.+)$`)? -/
def isHeaderLine (l : Str) : Bool := (headerText l).isSome

/-- The line-scanning loop of `Parser.GetSection`: a heading whose tag
matches opens (or re-opens) the section and is written; any other heading
ends the scan once inside; other lines are written while inside. -/
def getSectionLines (tid : Str) : List Str → Bool → List Str
  | [], _ => []
  | l :: ls, inSec =>
    match headerText l with
    | some t =>
      if generateTagID t = tid then l :: getSectionLines tid ls true
      else if inSec then []
      else getSectionLines tid ls inSec
    | none =>
      if inSec then l :: getSectionLines tid ls true
      else getSectionLines tid ls inSec

/-- `Parser.GetSection`, applied to a chapter body: scan the lines,
accumulate the matching section, fail ("section not found") when nothing
was accumulated. -/
def getSectionFromContent (content tid : Str) : Option Str :=
  let acc := getSectionLines tid (splitLines content) false
  if acc = [] then none else some (trimSpace (joinLinesNl acc))

theorem getSectionLines_inSec (tid : Str) : ∀ rest : List Str,
    getSectionLines tid rest true =
      rest.takeWhile (fun l => !(isHeaderLine l && !lineMatches tid l))
  | [] => rfl
  | l :: ls => by
    cases hh : headerText l with
    | some t =>
      by_cases ht : generateTagID t = tid
      · rw [show getSectionLines tid (l :: ls) true = l :: getSectionLines tid ls true from by
          simp [getSectionLines, hh, ht]]
        rw [getSectionLines_inSec tid ls]
        rw [show (List.takeWhile (fun l => !(isHeaderLine l && !lineMatches tid l)) (l :: ls)) =
            l :: List.takeWhile (fun l => !(isHeaderLine l && !lineMatches tid l)) ls from by
          simp [List.takeWhile, isHeaderLine, lineMatches, hh, ht]]
      · rw [show getSectionLines tid (l :: ls) true = [] from by
          simp [getSectionLines, hh, ht]]
        rw [show (List.takeWhile (fun l => !(isHeaderLine l && !lineMatches tid l)) (l :: ls)) =
            [] from by simp [List.takeWhile, isHeaderLine, lineMatches, hh, ht]]
    | none =>
      rw [show getSectionLines tid (l :: ls) true = l :: getSectionLines tid ls true from by
        simp [getSectionLines, hh]]
      rw [getSectionLines_inSec tid ls]
      rw [show (List.takeWhile (fun l => !(isHeaderLine l && !lineMatches tid l)) (l :: ls)) =
          l :: List.takeWhile (fun l => !(isHeaderLine l && !lineMatches tid l)) ls from by
        simp [List.takeWhile, isHeaderLine, lineMatches, hh]]

theorem getSectionLines_no_match (tid : Str) : ∀ lines : List Str,
    (∀ l ∈ lines, lineMatches tid l = false) → getSectionLines tid lines false = []
  | [], _ => rfl
  | l :: ls, h => by
    have hl : lineMatches tid l = false := h l (by simp)
    cases hh : headerText l with
    | some t =>
      have ht : ¬(generateTagID t = tid) := by
        simp only [lineMatches, hh] at hl
        simpa using hl
      rw [show getSectionLines tid (l :: ls) false = getSectionLines tid ls false from by
        simp [getSectionLines, hh, ht]]
      exact getSectionLines_no_match tid ls fun x hx => h x (by simp [hx])
    | none =>
      rw [show getSectionLines tid (l :: ls) false = getSectionLines tid ls false from by
        simp [getSectionLines, hh]]
      exact getSectionLines_no_match tid ls fun x hx => h x (by simp [hx])

theorem getSectionLines_found (tid : Str) : ∀ (pre : List Str) (h : Str) (rest : List Str),
    (∀ l ∈ pre, lineMatches tid l = false) → lineMatches tid h = true →
    getSectionLines tid (pre ++ h :: rest) false =
      h :: rest.takeWhile (fun l => !(isHeaderLine l && !lineMatches tid l))
  | [], h, rest, _, hm => by
    have hh : ∃ t, headerText h = some t ∧ generateTagID t = tid := by
      unfold lineMatches at hm
      cases hht : headerText h with
      | some t =>
        rw [hht] at hm
        exact ⟨t, rfl, by simpa using hm⟩
      | none => rw [hht] at hm; simp at hm
    obtain ⟨t, hht, htt⟩ := hh
    simp only [List.nil_append]
    rw [show getSectionLines tid (h :: rest) false = h :: getSectionLines tid rest true from by
      simp [getSectionLines, hht, htt]]
    rw [getSectionLines_inSec tid rest]
  | p :: pre, h, rest, hpre, hm => by
    have hp : lineMatches tid p = false := hpre p (by simp)
    have hrec := getSectionLines_found tid pre h rest
      (fun x hx => hpre x (by simp [hx])) hm
    cases hhp : headerText p with
    | some t =>
      have ht : ¬(generateTagID t = tid) := by
        simp only [lineMatches, hhp] at hp
        simpa using hp
      rw [show getSectionLines tid ((p :: pre) ++ h :: rest) false =
          getSectionLines tid (pre ++ h :: rest) false from by
        simp [getSectionLines, hhp, ht]]
      exact hrec
    | none =>
      rw [show getSectionLines tid ((p :: pre) ++ h :: rest) false =
          getSectionLines tid (pre ++ h :: rest) false from by
        simp [getSectionLines, hhp]]
      exact hrec

theorem headerText_head (l : Str) {t : Str} (h : headerText l = some t) :
    l.head? = some '#' := by
  cases l with
  | nil => simp [headerText, parseHashHeader, List.takeWhile] at h
  | cons c ls =>
    by_cases hc : c = '#'
    · rw [hc]; rfl
    · exfalso
      have : (List.takeWhile (fun x => decide (x = '#')) (c :: ls)).length = 0 := by
        simp [List.takeWhile, hc]
      simp [headerText, parseHashHeader, this] at h

theorem trimSpace_head {l : Str} {c : Char} (hh : l.head? = some c)
    (hc : goIsSpace c = false) : (trimSpace l).head? = some c ∧ trimSpace l ≠ [] := by
  have hd : l.dropWhile goIsSpace = l := by
    apply dropWhile_eq_self_of_head
    intro a ha
    rw [hh] at ha
    cases ha
    exact hc
  have hts : trimSpace l = (l.reverse.dropWhile goIsSpace).reverse := by
    unfold trimSpace
    rw [hd]
  have hpre : trimSpace l <+: l := by
    rw [hts, ← List.reverse_suffix, List.reverse_reverse]
    exact dropWhile_isSuffix _ _
  have hne : trimSpace l ≠ [] := by
    intro hnil
    have : l.reverse.dropWhile goIsSpace = [] := by
      have := congrArg List.reverse hnil
      rw [hts] at hnil
      have := congrArg List.reverse hnil
      simpa using this
    have hall : ∀ a ∈ l.reverse, goIsSpace a := by
      rw [← List.dropWhile_eq_nil_iff]
      exact this
    have hcl : c ∈ l := by
      cases l with
      | nil => simp at hh
      | cons a t => cases hh; simp
    have := hall c (by simpa using hcl)
    rw [hc] at this
    exact Bool.false_ne_true this
  refine ⟨?_, hne⟩
  rw [← isPrefix_head? hpre hne]
  exact hh

theorem joinLinesNl_head {h : Str} {c : Char} (rest : List Str) (hh : h.head? = some c) :
    (joinLinesNl (h :: rest)).head? = some c := by
  cases h with
  | nil => simp at hh
  | cons a t => cases hh; rfl

/-- C6 (amended): for every chapter body and requested slug, if no line is a
heading whose derived slug equals the request, `GetSection` fails with the
NotFound error; if the lines split as `pre ++ h :: rest` with `h` the first
heading whose slug matches, the returned text is non-empty, begins with the
`#` of `h`'s own heading line, and is the trimmed join of the run of lines
starting at `h` and extending up to but excluding the next heading line
whose derived slug differs from the requested one (heading lines with the
same slug are included and keep the section open). -/
theorem getSection_spec (content tid : Str) :
    ((∀ l ∈ splitLines content, lineMatches tid l = false) →
        getSectionFromContent content tid = none) ∧
    (∀ pre h rest, splitLines content = pre ++ h :: rest →
        (∀ l ∈ pre, lineMatches tid l = false) → lineMatches tid h = true →
        ∃ s, getSectionFromContent content tid = some s ∧
          s = trimSpace (joinLinesNl (h :: rest.takeWhile
                (fun l => !(isHeaderLine l && !lineMatches tid l)))) ∧
          s ≠ [] ∧ s.head? = some '#') := by
  constructor
  · intro hall
    unfold getSectionFromContent
    rw [getSectionLines_no_match tid _ hall]
    rfl
  · intro pre h rest hdec hpre hm
    unfold getSectionFromContent
    rw [hdec, getSectionLines_found tid pre h rest hpre hm]
    rw [if_neg (by simp)]
    have hhead : h.head? = some '#' := by
      unfold lineMatches at hm
      cases hht : headerText h with
      | some t => exact headerText_head h hht
      | none => rw [hht] at hm; simp at hm
    have hj := joinLinesNl_head
      (rest.takeWhile (fun l => !(isHeaderLine l && !lineMatches tid l))) hhead
    have hts := trimSpace_head hj (by decide)
    exact ⟨_, rfl, rfl, hts.2, hts.1⟩

/-- C6 witness: a concrete document where the requested section exists; the
theorem applies and all hypotheses are discharged by evaluation. -/
theorem getSection_spec_witness :
    ∃ s, getSectionFromContent "## Intro\nhello\n## Other\nx".data "intro".data = some s ∧
      s = trimSpace (joinLinesNl ("## Intro".data ::
            (["hello".data, "## Other".data, "x".data].takeWhile
              (fun l => !(isHeaderLine l && !lineMatches "intro".data l))))) ∧
      s ≠ [] ∧ s.head? = some '#' :=
  (getSection_spec "## Intro\nhello\n## Other\nx".data "intro".data).2
    [] "## Intro".data ["hello".data, "## Other".data, "x".data]
    (by decide) (by simp) (by decide)

/-- C6, counterexample: with two headings deriving the same slug, the
returned block does not stop at the next heading line at any level — the
second "## A" heading line (a heading at level 2) and its text are
included, so the block is "## A\nx\n## A\ny" instead of the claimed
"## A\nx". -/
theorem getSection_duplicate_slug_counterexample :
    getSectionFromContent "## A\nx\n## A\ny\n## B\nz".data "a".data =
      some "## A\nx\n## A\ny".data ∧
    isHeaderLine "## A".data = true ∧
    "## A\nx\n## A\ny".data ≠ "## A\nx".data :=
  ⟨by decide, by decide, by decide⟩

/-! Data model (src/internal/book/models.go, src/unnamed/part_001). -/

/-- `book.Section`. -/
structure Section where
  Name : Str
  TagID : Str
deriving DecidableEq

/-- `book.Chapter`. -/
structure Chapter where
  ID : Str
  Order : Int
  Name : Str
  Locale : Str
  TitleList : List Section
  Content : Str
  FilePath : Str
deriving DecidableEq

/-- `book.SearchResult`; the `float64` relevance is modelled exactly as a
rational number. -/
structure SearchResult where
  ChapterID : Str
  ChapterName : Str
  Section : Str
  Snippet : Str
  LineNumber : Nat
  Relevance : ℚ
  Locale : Str
deriving DecidableEq

/-! A sort that swaps out-of-order elements, modelling both the explicit
double loop of `VectorStore.Search` and the stdlib `sort.Slice` call of
`Parser.Search` (for the latter only the sortedness and permutation
properties matter).  Written with a fuel argument so that it reduces by
computation. -/

/-- One pass of the outer loop: return the maximum (by `key`) of
`c :: l` and the remaining elements, each left in the slot where the
swaps put it. -/
def innerMax {α β : Type} [LinearOrder β] (key : α → β) : α → List α → α × List α
  | c, [] => (c, [])
  | c, x :: xs =>
    if key c < key x then
      let r := innerMax key x xs
      (r.1, c :: r.2)
    else
      let r := innerMax key c xs
      (r.1, x :: r.2)

def swapSortGo {α β : Type} [LinearOrder β] (key : α → β) : Nat → List α → List α
  | _, [] => []
  | 0, l => l
  | n + 1, c :: xs =>
    let r := innerMax key c xs
    r.1 :: swapSortGo key n r.2

/-- Sort a list non-increasingly by `key` (the fuel `l.length` always
suffices, by `innerMax_length`). -/
def swapSort {α β : Type} [LinearOrder β] (key : α → β) (l : List α) : List α :=
  swapSortGo key l.length l

theorem innerMax_length {α β : Type} [LinearOrder β] (key : α → β) :
    ∀ (c : α) (l : List α), (innerMax key c l).2.length = l.length
  | _, [] => rfl
  | c, x :: xs => by
    by_cases h : key c < key x
    · simp only [innerMax, if_pos h, List.length_cons]
      rw [innerMax_length key x xs]
    · simp only [innerMax, if_neg h, List.length_cons]
      rw [innerMax_length key c xs]

theorem innerMax_perm {α β : Type} [LinearOrder β] (key : α → β) :
    ∀ (c : α) (l : List α),
      List.Perm ((innerMax key c l).1 :: (innerMax key c l).2) (c :: l)
  | _, [] => List.Perm.refl _
  | c, x :: xs => by
    by_cases h : key c < key x
    · simp only [innerMax, if_pos h]
      exact (List.Perm.swap c _ _).trans ((innerMax_perm key x xs).cons c)
    · simp only [innerMax, if_neg h]
      exact ((List.Perm.swap x _ _).trans ((innerMax_perm key c xs).cons x)).trans
        (List.Perm.swap c x xs)

theorem innerMax_le {α β : Type} [LinearOrder β] (key : α → β) :
    ∀ (c : α) (l : List α), key c ≤ key (innerMax key c l).1 ∧
      ∀ x ∈ (innerMax key c l).2, key x ≤ key (innerMax key c l).1
  | _, [] => ⟨le_refl _, by simp [innerMax]⟩
  | c, x :: xs => by
    by_cases h : key c < key x
    · simp only [innerMax, if_pos h]
      obtain ⟨h1, h2⟩ := innerMax_le key x xs
      refine ⟨le_trans (le_of_lt h) h1, ?_⟩
      intro y hy
      rcases List.mem_cons.mp hy with rfl | hy
      · exact le_trans (le_of_lt h) h1
      · exact h2 y hy
    · simp only [innerMax, if_neg h]
      obtain ⟨h1, h2⟩ := innerMax_le key c xs
      refine ⟨h1, ?_⟩
      intro y hy
      rcases List.mem_cons.mp hy with rfl | hy
      · exact le_trans (le_of_not_lt h) h1
      · exact h2 y hy

theorem swapSortGo_perm {α β : Type} [LinearOrder β] (key : α → β) :
    ∀ (n : Nat) (l : List α), l.length ≤ n → List.Perm (swapSortGo key n l) l
  | n, [], _ => by cases n <;> exact List.Perm.refl _
  | 0, c :: xs, h => by simp at h
  | n + 1, c :: xs, h => by
    simp only [swapSortGo]
    have hlen : (innerMax key c xs).2.length ≤ n := by
      rw [innerMax_length]
      simpa using h
    exact ((swapSortGo_perm key n _ hlen).cons _).trans (innerMax_perm key c xs)

theorem swapSortGo_sorted {α β : Type} [LinearOrder β] (key : α → β) :
    ∀ (n : Nat) (l : List α), l.length ≤ n →
      (swapSortGo key n l).Pairwise (fun a b => key b ≤ key a)
  | n, [], _ => by cases n <;> simp [swapSortGo]
  | 0, c :: xs, h => by simp at h
  | n + 1, c :: xs, h => by
    simp only [swapSortGo]
    have hlen : (innerMax key c xs).2.length ≤ n := by
      rw [innerMax_length]
      simpa using h
    rw [List.pairwise_cons]
    refine ⟨?_, swapSortGo_sorted key n _ hlen⟩
    intro b hb
    have hbmem : b ∈ (innerMax key c xs).2 :=
      (swapSortGo_perm key n _ hlen).mem_iff.mp hb
    exact (innerMax_le key c xs).2 b hbmem

theorem swapSort_perm {α β : Type} [LinearOrder β] (key : α → β) (l : List α) :
    List.Perm (swapSort key l) l := swapSortGo_perm key l.length l (le_refl _)

theorem swapSort_sorted {α β : Type} [LinearOrder β] (key : α → β) (l : List α) :
    (swapSort key l).Pairwise (fun a b => key b ≤ key a) :=
  swapSortGo_sorted key l.length l (le_refl _)

/-! Lexical search: `Parser.Search` (src/internal/book/parser.go). -/

/-- Go `strings.Fields`: the substrings separated by runs of whitespace. -/
def fields (l : Str) : List Str :=
  (List.splitOnP goIsSpace l).filter (fun s => decide (s ≠ []))

/-- The "update current section" step of the scan. -/
def currentOf (l cur : Str) : Str :=
  match headerText l with
  | some t => t
  | none => cur

/-- Go `strings.Contains(s, sub)`: does `sub` occur as a contiguous
substring of `s`? -/
def containsStr : Str → Str → Bool
  | [], sub => sub.isPrefixOf ([] : Str)
  | c :: t, sub => sub.isPrefixOf (c :: t) || containsStr t sub

/-- How many query tokens (counted with multiplicity) are substrings of the
lowercased line. -/
def matchCountOf (qw : List Str) (l : Str) : Nat :=
  (qw.filter (fun w => containsStr (l.map Char.toLower) w)).length

/-- The snippet: the line, truncated to 200 characters plus "..." when
longer. -/
def snippetOf (l : Str) : Str :=
  if 200 < l.length then l.take 200 ++ "...".data else l

/-- The `SearchResult` record built for one matching line. -/
def mkHit (ch : Chapter) (locale cur : Str) (qw : List Str) (l : Str) (num : Nat) :
    SearchResult where
  ChapterID := ch.ID
  ChapterName := ch.Name
  Section := cur
  Snippet := snippetOf l
  LineNumber := num
  Relevance := (matchCountOf qw l : ℚ) / (qw.length : ℚ)
  Locale := locale

/-- The per-line loop of `Parser.Search`: update the current section, count
matching tokens, emit one hit per line with a positive count.  `lineNum`
is the number of lines already consumed (line numbers are 1-based). -/
def scanLines (ch : Chapter) (locale : Str) (qw : List Str) :
    List Str → Nat → Str → List SearchResult
  | [], _, _ => []
  | l :: ls, lineNum, cur =>
    if 0 < matchCountOf qw l then
      mkHit ch locale (currentOf l cur) qw l (lineNum + 1) ::
        scanLines ch locale qw ls (lineNum + 1) (currentOf l cur)
    else
      scanLines ch locale qw ls (lineNum + 1) (currentOf l cur)

/-- All hits over the locale's chapters, in scan order. -/
def collectHits (locale : Str) (qw : List Str) : List Chapter → List SearchResult
  | [] => []
  | ch :: rest =>
    scanLines ch locale qw (splitLines ch.Content) 0 [] ++ collectHits locale qw rest

/-- `Parser.Search`, given the locale's parsed chapters: lowercase and split
the query, scan every chapter, sort by relevance descending, keep at most
20 results. -/
def searchChapters (chapters : List Chapter) (query locale : Str) : List SearchResult :=
  (swapSort (fun r : SearchResult => r.Relevance)
    (collectHits locale (fields (query.map Char.toLower)) chapters)).take 20

theorem scanLines_no_terms (ch : Chapter) (locale : Str) :
    ∀ (lines : List Str) (n : Nat) (cur : Str), scanLines ch locale [] lines n cur = []
  | [], _, _ => rfl
  | l :: ls, n, cur => by
    have hmc : matchCountOf [] l = 0 := rfl
    simp only [scanLines, hmc]
    rw [if_neg (by omega)]
    exact scanLines_no_terms ch locale ls (n + 1) (currentOf l cur)

theorem collectHits_no_terms (locale : Str) :
    ∀ chapters : List Chapter, collectHits locale [] chapters = []
  | [] => rfl
  | ch :: rest => by
    simp only [collectHits, scanLines_no_terms, List.nil_append]
    exact collectHits_no_terms locale rest

/-- C10: a query that splits into zero lowercased terms (empty or
whitespace-only) produces no hits at all: the per-line match count over an
empty token list is zero, so no hit — and hence no division by the zero
token count — is ever produced, and the result is the empty list. -/
theorem search_zero_terms (chapters : List Chapter) (query locale : Str)
    (h : fields (query.map Char.toLower) = []) :
    searchChapters chapters query locale = [] := by
  unfold searchChapters
  rw [h, collectHits_no_terms]
  rfl

/-- C10 witness: a whitespace-only query over a non-trivial chapter. -/
theorem search_zero_terms_witness :
    searchChapters [⟨"c1".data, 1, "Ch".data, "en".data, [], "hello world".data, []⟩]
      " \t ".data "en".data = [] :=
  search_zero_terms _ _ _ (by decide)

theorem scanLines_mem {ch : Chapter} {locale : Str} {qw : List Str} :
    ∀ {lines : List Str} {n : Nat} {cur : Str} {r : SearchResult},
      r ∈ scanLines ch locale qw lines n cur →
      ∃ i, ∃ hlt : i < lines.length,
        0 < matchCountOf qw (lines.get ⟨i, hlt⟩) ∧
        r.Relevance = (matchCountOf qw (lines.get ⟨i, hlt⟩) : ℚ) / (qw.length : ℚ) ∧
        r.Snippet = snippetOf (lines.get ⟨i, hlt⟩) ∧
        r.LineNumber = n + i + 1 ∧
        r.ChapterID = ch.ID ∧ r.ChapterName = ch.Name ∧ r.Locale = locale := by
  intro lines
  induction lines with
  | nil => intro n cur r h; simp [scanLines] at h
  | cons l ls ih =>
    intro n cur r h
    simp only [scanLines] at h
    by_cases hmc : 0 < matchCountOf qw l
    · rw [if_pos hmc] at h
      rcases List.mem_cons.mp h with rfl | h
      · exact ⟨0, by simp, hmc, rfl, rfl, rfl, rfl, rfl, rfl⟩
      · obtain ⟨i, hlt, hrest⟩ := ih h
        refine ⟨i + 1, by simpa using hlt, ?_⟩
        simpa [Nat.add_assoc, Nat.add_comm, Nat.add_left_comm] using hrest
    · rw [if_neg hmc] at h
      obtain ⟨i, hlt, hrest⟩ := ih h
      refine ⟨i + 1, by simpa using hlt, ?_⟩
      simpa [Nat.add_assoc, Nat.add_comm, Nat.add_left_comm] using hrest

theorem collectHits_mem {locale : Str} {qw : List Str} :
    ∀ {chapters : List Chapter} {r : SearchResult},
      r ∈ collectHits locale qw chapters →
      ∃ ch ∈ chapters, r ∈ scanLines ch locale qw (splitLines ch.Content) 0 []
  | [], r, h => by simp [collectHits] at h
  | ch :: rest, r, h => by
    rcases List.mem_append.mp h with h | h
    · exact ⟨ch, by simp, h⟩
    · obtain ⟨ch', hch', hr⟩ := collectHits_mem h
      exact ⟨ch', by simp [hch'], hr⟩

/-- C5 (amended): lexical search emits one hit per body line whose
lowercased form contains at least one query token, with relevance equal to
the number of matching query tokens counted with multiplicity (not the
number of distinct matched terms) divided by the total number of tokens,
and snippet the line truncated to 200 characters with an ellipsis; the
returned list is a 20-element-capped prefix of a permutation of those hits
sorted non-increasingly by relevance, and a query matching nothing yields
the empty list rather than an error. -/
theorem search_spec (chapters : List Chapter) (query locale : Str) :
    ∃ sortedAll,
      List.Perm sortedAll (collectHits locale (fields (query.map Char.toLower)) chapters) ∧
      sortedAll.Pairwise (fun a b => b.Relevance ≤ a.Relevance) ∧
      searchChapters chapters query locale = sortedAll.take 20 ∧
      (searchChapters chapters query locale).length ≤ 20 ∧
      (∀ r ∈ searchChapters chapters query locale,
        ∃ ch ∈ chapters, ∃ i,
          ∃ hlt : i < (splitLines ch.Content).length,
          0 < matchCountOf (fields (query.map Char.toLower))
                ((splitLines ch.Content).get ⟨i, hlt⟩) ∧
          r.Relevance = (matchCountOf (fields (query.map Char.toLower))
                ((splitLines ch.Content).get ⟨i, hlt⟩) : ℚ) /
              ((fields (query.map Char.toLower)).length : ℚ) ∧
          r.Snippet = snippetOf ((splitLines ch.Content).get ⟨i, hlt⟩) ∧
          r.LineNumber = i + 1 ∧ r.ChapterID = ch.ID) ∧
      (collectHits locale (fields (query.map Char.toLower)) chapters = [] →
        searchChapters chapters query locale = []) := by
  refine ⟨swapSort (fun r : SearchResult => r.Relevance)
      (collectHits locale (fields (query.map Char.toLower)) chapters),
    swapSort_perm _ _, swapSort_sorted _ _, rfl, List.length_take_le _ _, ?_, ?_⟩
  · intro r hr
    have hmem : r ∈ collectHits locale (fields (query.map Char.toLower)) chapters :=
      (swapSort_perm _ _).mem_iff.mp (List.mem_of_mem_take hr)
    obtain ⟨ch, hch, hscan⟩ := collectHits_mem hmem
    obtain ⟨i, hlt, h1, h2, h3, h4, h5, _⟩ := scanLines_mem hscan
    exact ⟨ch, hch, i, hlt, h1, h2, h3, by simpa using h4, h5⟩
  · intro hnil
    unfold searchChapters
    rw [hnil]
    rfl

/-- C5 witness: a concrete corpus and query on which the theorem's
conditional parts are exercised. -/
theorem search_spec_witness :
    ∃ sortedAll,
      List.Perm sortedAll (collectHits "en".data
        (fields ("hello".data.map Char.toLower))
        [⟨"c1".data, 1, "Ch".data, "en".data, [], "hello\nworld".data, []⟩]) ∧
      sortedAll.Pairwise (fun a b => b.Relevance ≤ a.Relevance) ∧
      searchChapters [⟨"c1".data, 1, "Ch".data, "en".data, [], "hello\nworld".data, []⟩]
          "hello".data "en".data = sortedAll.take 20 ∧
      (searchChapters [⟨"c1".data, 1, "Ch".data, "en".data, [], "hello\nworld".data, []⟩]
          "hello".data "en".data).length ≤ 20 ∧
      (∀ r ∈ searchChapters [⟨"c1".data, 1, "Ch".data, "en".data, [], "hello\nworld".data, []⟩]
          "hello".data "en".data,
        ∃ ch ∈ [(⟨"c1".data, 1, "Ch".data, "en".data, [], "hello\nworld".data, []⟩ : Chapter)],
          ∃ i, ∃ hlt : i < (splitLines ch.Content).length,
          0 < matchCountOf (fields ("hello".data.map Char.toLower))
                ((splitLines ch.Content).get ⟨i, hlt⟩) ∧
          r.Relevance = (matchCountOf (fields ("hello".data.map Char.toLower))
                ((splitLines ch.Content).get ⟨i, hlt⟩) : ℚ) /
              ((fields ("hello".data.map Char.toLower)).length : ℚ) ∧
          r.Snippet = snippetOf ((splitLines ch.Content).get ⟨i, hlt⟩) ∧
          r.LineNumber = i + 1 ∧ r.ChapterID = ch.ID) ∧
      (collectHits "en".data (fields ("hello".data.map Char.toLower))
          [⟨"c1".data, 1, "Ch".data, "en".data, [], "hello\nworld".data, []⟩] = [] →
        searchChapters [⟨"c1".data, 1, "Ch".data, "en".data, [], "hello\nworld".data, []⟩]
          "hello".data "en".data = []) :=
  search_spec [⟨"c1".data, 1, "Ch".data, "en".data, [], "hello\nworld".data, []⟩]
    "hello".data "en".data

/-- C5, counterexample: relevance counts query tokens with multiplicity,
not distinct matched terms.  For the query "a a" against the single line
"a", the emitted relevance is 2/2 = 1, while the claimed distinct-count
relevance is 1/2. -/
theorem search_relevance_counterexample :
    searchChapters [⟨"c1".data, 1, "Ch".data, "en".data, [], "a".data, []⟩]
        "a a".data "en".data =
      [mkHit ⟨"c1".data, 1, "Ch".data, "en".data, [], "a".data, []⟩ "en".data []
        (fields ("a a".data.map Char.toLower)) "a".data 1] ∧
    (mkHit ⟨"c1".data, 1, "Ch".data, "en".data, [], "a".data, []⟩ "en".data []
        (fields ("a a".data.map Char.toLower)) "a".data 1).Relevance = 1 ∧
    ((fields ("a a".data.map Char.toLower)).dedup.filter
        (fun w => containsStr ("a".data.map Char.toLower) w)).length = 1 ∧
    (fields ("a a".data.map Char.toLower)).length = 2 ∧
    (1 : ℚ) ≠ 1 / 2 := by
  refine ⟨rfl, ?_, by decide, by decide, by norm_num⟩
  have h1 : matchCountOf (fields ("a a".data.map Char.toLower)) "a".data = 2 := by decide
  have h2 : (fields ("a a".data.map Char.toLower)).length = 2 := by decide
  simp only [mkHit]
  rw [h1, h2]
  norm_num

/-! Chunking: `splitIntoChunks`, `splitLongContent`, `truncateContent` and
the chunk identifier counter of `handleBuildSemanticIndex`
(src/unnamed/part_000). -/

/-- `embeddings.Chunk` (src/unnamed/part_001): the embedding vector of
`float64` values is modelled over exact rationals; it is empty (Go `nil`)
until indexing populates it. -/
structure Chunk where
  ID : Str
  ChapterID : Str
  ChapterName : Str
  Section : Str
  Content : Str
  Embedding : List ℚ
  Locale : Str
deriving DecidableEq

/-- `strings.Split(content, "\n\n")`: the paragraphs of a section. -/
def splitParagraphs : Str → List Str
  | [] => [[]]
  | '\n' :: '\n' :: rest => [] :: splitParagraphs rest
  | c :: rest =>
    match splitParagraphs rest with
    | [] => [[c]]
    | h :: t => (c :: h) :: t

/-- `truncateContent(content, maxLen)`: hard truncation with an ellipsis. -/
def truncateContent (content : Str) (maxLen : Nat) : Str :=
  if content.length ≤ maxLen then content else content.take maxLen ++ "...".data

/-- The paragraph-accumulating loop of `splitLongContent`: flush the buffer
when adding the next paragraph would exceed `maxLen` and the buffer is
non-empty, otherwise append the paragraph (with the `"\n\n"` separator when
the buffer is non-empty); flush the remainder at the end. -/
def slcLoop (maxLen : Nat) : List Str → Str → List Str
  | [], current => if current = [] then [] else [trimSpace current]
  | p :: ps, current =>
    if maxLen < current.length + p.length ∧ current ≠ [] then
      trimSpace current :: slcLoop maxLen ps p
    else
      slcLoop maxLen ps (if current = [] then p else current ++ '\n' :: '\n' :: p)

/-- `splitLongContent(content, maxLen)`. -/
def splitLongContent (content : Str) (maxLen : Nat) : List Str :=
  if content.length ≤ maxLen then [content]
  else slcLoop maxLen (splitParagraphs content) []

/-- `strings.Join`-style intercalation with `"\n"`, the inverse of
`splitLines`; the regex-`Split` pieces of `splitIntoChunks` agree with the
intercalated between-heading lines after `TrimSpace`. -/
def intercalateNl : List Str → Str
  | [] => []
  | [l] => l
  | l :: ls => l ++ '\n' :: intercalateNl ls

/-- The effect of `headerPattern.Split`/`FindAllStringSubmatch` for the
multiline regex `^##\s+(.+)$` in `splitIntoChunks`, line-based: the lines
before the first level-2 heading, and for each level-2 heading its text
together with the lines before the next level-2 heading. -/
def splitH2 : List Str → List Str × List (Str × List Str)
  | [] => ([], [])
  | l :: ls =>
    let r := splitH2 ls
    match h2Text l with
    | some t => ([], (t, r.1) :: r.2)
    | none => (l :: r.1, r.2)

/-- `fmt.Sprintf("chunk_%d", n)`. -/
def chunkIdStr (n : Nat) : Str := "chunk_".data ++ (Nat.repr n).data

/-- `fmt.Sprintf(" (part %d)", j+1)`. -/
def partSuffix (j : Nat) : Str := " (part ".data ++ (Nat.repr (j + 1)).data ++ ")".data

/-- The inner fragment loop of `splitIntoChunks`: emit one chunk per
fragment, incrementing the shared counter before each chunk, with a
"(part N)" suffix exactly when the section was split into more than one
fragment.  `total` is the fragment count of the section, `j` the 0-based
fragment index. -/
def emitFrags (chapterID chapterName locale t : Str) (total : Nat) :
    List Str → Nat → Nat → List Chunk
  | [], _, _ => []
  | c :: cs, n, j =>
    { ID := chunkIdStr (n + 1), ChapterID := chapterID, ChapterName := chapterName,
      Section := t ++ (if 1 < total then partSuffix j else []),
      Content := c, Embedding := [], Locale := locale } ::
      emitFrags chapterID chapterName locale t total cs (n + 1) (j + 1)

/-- The per-section loop of `splitIntoChunks`: skip blank sections, split
long section text into fragments, emit the fragments. -/
def sectionChunks (chapterID chapterName locale : Str) :
    List (Str × List Str) → Nat → List Chunk × Nat
  | [], n => ([], n)
  | (t, blockLines) :: rest, n =>
    let sc := trimSpace (intercalateNl blockLines)
    if sc = [] then sectionChunks chapterID chapterName locale rest n
    else
      let cs := splitLongContent sc 1000
      let r := sectionChunks chapterID chapterName locale rest (n + cs.length)
      (emitFrags chapterID chapterName locale t cs.length cs n 0 ++ r.1, r.2)

/-- `splitIntoChunks(content, chapterID, chapterName, locale, idCounter)`:
the non-blank text before the first level-2 heading becomes one
"Introduction" chunk hard-truncated to 1000 units, then each non-blank
section is split into size-bounded fragments. -/
def splitIntoChunks (content chapterID chapterName locale : Str) (idCounter : Nat) :
    List Chunk × Nat :=
  let r := splitH2 (splitLines content)
  let intro := trimSpace (intercalateNl r.1)
  let startState : List Chunk × Nat :=
    if intro ≠ [] then
      ([{ ID := chunkIdStr (idCounter + 1), ChapterID := chapterID,
          ChapterName := chapterName, Section := "Introduction".data,
          Content := truncateContent intro 1000, Embedding := [], Locale := locale }],
        idCounter + 1)
    else ([], idCounter)
  let r2 := sectionChunks chapterID chapterName locale r.2 startState.2
  (startState.1 ++ r2.1, r2.2)

/-- The chapter loop of `handleBuildSemanticIndex` for one locale. -/
def buildChaptersLoop (locale : Str) : List Chapter → Nat → List Chunk × Nat
  | [], n => ([], n)
  | ch :: rest, n =>
    let r := splitIntoChunks ch.Content ch.ID ch.Name locale n
    let r2 := buildChaptersLoop locale rest r.2
    (r.1 ++ r2.1, r2.2)

/-- The locale loop of `handleBuildSemanticIndex`. -/
def buildLocalesLoop : List (Str × List Chapter) → Nat → List Chunk × Nat
  | [], n => ([], n)
  | (locale, chs) :: rest, n =>
    let r := buildChaptersLoop locale chs n
    let r2 := buildLocalesLoop rest r.2
    (r.1 ++ r2.1, r2.2)

/-- One invocation of `handleBuildSemanticIndex`'s chunk collection:
`chunkID := 0` is local to the call, then all chapters of all requested
locales are chunked against the shared counter. -/
def buildIndexChunks (localeChapters : List (Str × List Chapter)) : List Chunk :=
  (buildLocalesLoop localeChapters 0).1

/-- Does the string contain the paragraph separator `"\n\n"`? -/
def hasNlNl : Str → Bool
  | '\n' :: '\n' :: _ => true
  | _ :: rest => hasNlNl rest
  | [] => false

theorem splitParagraphs_cons_eq (c : Char) (rest : Str)
    (hnd : ¬(c = '\n' ∧ rest.head? = some '\n')) :
    splitParagraphs (c :: rest) =
      match splitParagraphs rest with
      | [] => [[c]]
      | h :: t => (c :: h) :: t := by
  cases rest with
  | nil =>
    by_cases hc : c = '\n'
    · subst hc; rfl
    · simp [splitParagraphs, hc]
  | cons d rest' =>
    by_cases hc : c = '\n'
    · subst hc
      have hd : d ≠ '\n' := fun h => hnd ⟨rfl, by simp [h]⟩
      simp [splitParagraphs, hd]
    · simp [splitParagraphs, hc]

theorem hasNlNl_cons (c : Char) (l : Str)
    (h : ¬(c = '\n' ∧ l.head? = some '\n')) : hasNlNl (c :: l) = hasNlNl l := by
  cases l with
  | nil =>
    by_cases hc : c = '\n'
    · subst hc; rfl
    · simp [hasNlNl, hc]
  | cons d rest =>
    by_cases hc : c = '\n'
    · subst hc
      have hd : d ≠ '\n' := fun hh => h ⟨rfl, by simp [hh]⟩
      simp [hasNlNl, hd]
    · simp [hasNlNl, hc]

theorem splitParagraphs_head_prefix :
    ∀ (n : Nat) (l : Str), l.length ≤ n →
      ∃ h t, splitParagraphs l = h :: t ∧ h <+: l
  | _, [], _ => ⟨[], [], rfl, by simp⟩
  | 0, c :: rest, h => by simp at h
  | n + 1, c :: rest, h => by
    by_cases hcd : c = '\n' ∧ rest.head? = some '\n'
    · obtain ⟨hc, hd⟩ := hcd
      subst hc
      cases rest with
      | nil => simp at hd
      | cons d rest' =>
        have hdn : d = '\n' := by simpa using hd
        subst hdn
        exact ⟨[], splitParagraphs rest', rfl, by simp⟩
    · obtain ⟨hh, tt, heq, hpre⟩ :=
        splitParagraphs_head_prefix n rest (by simp at h; omega)
      rw [splitParagraphs_cons_eq c rest hcd, heq]
      exact ⟨c :: hh, tt, rfl, by
        obtain ⟨r, rfl⟩ := hpre
        exact ⟨r, rfl⟩⟩

/-- No piece produced by the paragraph split contains the separator. -/
theorem splitParagraphs_no_sep :
    ∀ (n : Nat) (l : Str), l.length ≤ n → ∀ p ∈ splitParagraphs l, hasNlNl p = false
  | _, [], _, p, hp => by
    simp [splitParagraphs] at hp
    subst hp
    rfl
  | 0, c :: rest, h, p, hp => by simp at h
  | n + 1, c :: rest, h, p, hp => by
    by_cases hcd : c = '\n' ∧ rest.head? = some '\n'
    · obtain ⟨hc, hd⟩ := hcd
      subst hc
      cases rest with
      | nil => simp at hd
      | cons d rest' =>
        have hdn : d = '\n' := by simpa using hd
        subst hdn
        rw [show splitParagraphs ('\n' :: '\n' :: rest') = [] :: splitParagraphs rest' from rfl] at hp
        rcases List.mem_cons.mp hp with rfl | hp
        · rfl
        · exact splitParagraphs_no_sep n rest' (by simp at h; omega) p hp
    · obtain ⟨hh, tt, heq, hpre⟩ :=
        splitParagraphs_head_prefix rest.length rest (le_refl _)
      rw [splitParagraphs_cons_eq c rest hcd, heq] at hp
      have hmemhh : hasNlNl hh = false :=
        splitParagraphs_no_sep n rest (by simp at h; omega) hh (heq ▸ List.mem_cons_self _ _)
      rcases List.mem_cons.mp hp with rfl | hp
      · have hnd2 : ¬(c = '\n' ∧ hh.head? = some '\n') := by
          intro hpair
          apply hcd
          refine ⟨hpair.1, ?_⟩
          cases hh with
          | nil => simp at hpair
          | cons x xs =>
            obtain ⟨r, hr⟩ := hpre
            rw [← hr]
            simpa using hpair.2
        rw [hasNlNl_cons c hh hnd2]
        exact hmemhh
      · exact splitParagraphs_no_sep n rest (by simp at h; omega) p
          (heq ▸ List.mem_cons_of_mem _ hp)

theorem hasNlNl_iff_sep : ∀ l : Str, hasNlNl l = true ↔ ['\n', '\n'] <:+: l := by
  intro l
  induction l with
  | nil => simp [hasNlNl]
  | cons c rest ih =>
    by_cases hcd : c = '\n' ∧ rest.head? = some '\n'
    · obtain ⟨hc, hd⟩ := hcd
      subst hc
      cases rest with
      | nil => simp at hd
      | cons d rest' =>
        have hdn : d = '\n' := by simpa using hd
        subst hdn
        constructor
        · intro _
          exact ⟨[], rest', rfl⟩
        · intro _
          rfl
    · rw [hasNlNl_cons c rest hcd, ih]
      constructor
      · intro hinf
        exact hinf.trans (List.suffix_cons c rest).isInfix
      · rintro ⟨s, t, hst⟩
        cases s with
        | nil =>
          exfalso
          simp only [List.nil_append, List.cons_append, List.cons.injEq] at hst
          exact hcd ⟨hst.1.symm, by rw [← hst.2]; rfl⟩
        | cons x s' =>
          simp only [List.cons_append, List.cons.injEq] at hst
          exact ⟨s', t, hst.2⟩

theorem hasNlNl_false_of_sub {l₁ l₂ : Str} (h : l₁ <:+: l₂) (h2 : hasNlNl l₂ = false) :
    hasNlNl l₁ = false := by
  by_contra hc
  have h1 : hasNlNl l₁ = true := by
    cases hx : hasNlNl l₁
    · exact absurd hx hc
    · rfl
  have := (hasNlNl_iff_sep l₂).mpr (((hasNlNl_iff_sep l₁).mp h1).trans h)
  rw [h2] at this
  exact Bool.false_ne_true this

theorem trimSpace_isInfix (l : Str) : trimSpace l <:+: l :=
  doubleDropWhile_isInfix goIsSpace l

theorem trimSpace_length_le (l : Str) : (trimSpace l).length ≤ l.length :=
  (trimSpace_isInfix l).sublist.length_le

theorem trimSpace_no_sep {l : Str} (h : hasNlNl l = false) : hasNlNl (trimSpace l) = false :=
  hasNlNl_false_of_sub (trimSpace_isInfix l) h

/-- Invariant of the paragraph-accumulating loop: every emitted chunk
either respects `maxLen` plus the two-character separator overhead, or is
(the trimmed form of) a single separator-free paragraph. -/
theorem slcLoop_bound (maxLen : Nat) :
    ∀ (ps : List Str) (current : Str),
      (∀ p ∈ ps, hasNlNl p = false) →
      (current = [] ∨ hasNlNl current = false ∨ current.length ≤ maxLen + 2) →
      ∀ c ∈ slcLoop maxLen ps current,
        c.length ≤ maxLen + 2 ∨ hasNlNl c = false
  | [], current, hps, hcur => by
    intro c hc
    by_cases h : current = []
    · rw [show slcLoop maxLen [] current = [] from by simp [slcLoop, h]] at hc
      simp at hc
    · rw [show slcLoop maxLen [] current = [trimSpace current] from by simp [slcLoop, h]] at hc
      rcases List.mem_singleton.mp hc with rfl
      rcases hcur with rfl | hsep | hlen
      · exact absurd rfl h
      · exact Or.inr (trimSpace_no_sep hsep)
      · exact Or.inl (le_trans (trimSpace_length_le current) hlen)
  | p :: ps, current, hps, hcur => by
    intro c hc
    by_cases hcond : maxLen < current.length + p.length ∧ current ≠ []
    · rw [show slcLoop maxLen (p :: ps) current = trimSpace current :: slcLoop maxLen ps p from by
        simp [slcLoop, hcond]] at hc
      rcases List.mem_cons.mp hc with rfl | hc
      · rcases hcur with rfl | hsep | hlen
        · exact absurd rfl hcond.2
        · exact Or.inr (trimSpace_no_sep hsep)
        · exact Or.inl (le_trans (trimSpace_length_le current) hlen)
      · exact slcLoop_bound maxLen ps p (fun x hx => hps x (by simp [hx]))
          (Or.inr (Or.inl (hps p (by simp)))) c hc
    · rw [show slcLoop maxLen (p :: ps) current =
          slcLoop maxLen ps (if current = [] then p else current ++ '\n' :: '\n' :: p) from by
        simp [slcLoop, hcond]] at hc
      by_cases hce : current = []
      · rw [if_pos hce] at hc
        exact slcLoop_bound maxLen ps p (fun x hx => hps x (by simp [hx]))
          (Or.inr (Or.inl (hps p (by simp)))) c hc
      · rw [if_neg hce] at hc
        have hlen2 : (current ++ '\n' :: '\n' :: p).length ≤ maxLen + 2 := by
          have hnl : ¬(maxLen < current.length + p.length) := fun hlt => hcond ⟨hlt, hce⟩
          simp only [List.length_append, List.length_cons]
          omega
        exact slcLoop_bound maxLen ps _ (fun x hx => hps x (by simp [hx]))
          (Or.inr (Or.inr hlen2)) c hc

/-- Every fragment of `splitLongContent` is within `maxLen + 2` units or is
a single paragraph with no separator inside. -/
theorem splitLongContent_bound (content : Str) (maxLen : Nat) :
    ∀ c ∈ splitLongContent content maxLen,
      c.length ≤ maxLen + 2 ∨ hasNlNl c = false := by
  intro c hc
  unfold splitLongContent at hc
  by_cases h : content.length ≤ maxLen
  · rw [if_pos h] at hc
    rcases List.mem_singleton.mp hc with rfl
    exact Or.inl (le_trans h (by omega))
  · rw [if_neg h] at hc
    have hps : ∀ p ∈ splitParagraphs content, hasNlNl p = false :=
      splitParagraphs_no_sep content.length content (le_refl _)
    exact slcLoop_bound maxLen (splitParagraphs content) [] hps (Or.inl rfl) c hc

theorem truncateContent_cases (s : Str) (m : Nat) :
    (truncateContent s m).length ≤ m ∨
      ((truncateContent s m).length = m + 3 ∧ "...".data <:+ truncateContent s m) := by
  unfold truncateContent
  by_cases h : s.length ≤ m
  · rw [if_pos h]
    exact Or.inl h
  · rw [if_neg h]
    refine Or.inr ⟨?_, List.suffix_append _ _⟩
    have h3 : ("...".data : Str).length = 3 := rfl
    simp only [List.length_append, List.length_take, h3]
    omega

theorem emitFrags_content_mem (cid cn loc t : Str) (total : Nat) :
    ∀ (cs : List Str) (n j : Nat) (ch : Chunk),
      ch ∈ emitFrags cid cn loc t total cs n j → ch.Content ∈ cs
  | [], _, _, ch, h => by simp [emitFrags] at h
  | c :: cs, n, j, ch, h => by
    simp only [emitFrags] at h
    rcases List.mem_cons.mp h with rfl | h
    · simp
    · exact List.mem_cons_of_mem _
        (emitFrags_content_mem cid cn loc t total cs (n + 1) (j + 1) ch h)

theorem sectionChunks_bound (cid cn loc : Str) :
    ∀ (secs : List (Str × List Str)) (n : Nat),
      ∀ ch ∈ (sectionChunks cid cn loc secs n).1,
        ch.Content.length ≤ 1002 ∨ hasNlNl ch.Content = false
  | [], n, ch, h => by simp [sectionChunks] at h
  | (t, bl) :: rest, n, ch, h => by
    by_cases hsc : trimSpace (intercalateNl bl) = []
    · rw [show sectionChunks cid cn loc ((t, bl) :: rest) n =
          sectionChunks cid cn loc rest n from by simp [sectionChunks, hsc]] at h
      exact sectionChunks_bound cid cn loc rest n ch h
    · have hunf : (sectionChunks cid cn loc ((t, bl) :: rest) n).1 =
          emitFrags cid cn loc t (splitLongContent (trimSpace (intercalateNl bl)) 1000).length
            (splitLongContent (trimSpace (intercalateNl bl)) 1000) n 0 ++
          (sectionChunks cid cn loc rest
            (n + (splitLongContent (trimSpace (intercalateNl bl)) 1000).length)).1 := by
        simp [sectionChunks, hsc]
      rw [hunf] at h
      rcases List.mem_append.mp h with h | h
      · exact splitLongContent_bound (trimSpace (intercalateNl bl)) 1000 ch.Content
          (emitFrags_content_mem _ _ _ _ _ _ _ _ ch h)
      · exact sectionChunks_bound cid cn loc rest _ ch h

/-- C1 (amended): every chunk produced by `splitIntoChunks` either is the
"Introduction" chunk — whose content is within the 1000-unit maximum or is
hard-truncated to exactly 1003 units ending in the ellipsis marker — or
has content of at most 1002 units (the maximum plus the two-unit paragraph
separator, which the splitter's length check does not count), or consists
of a single source paragraph containing no paragraph separator, which the
splitter never breaks and which may exceed the maximum. -/
theorem splitIntoChunks_bound (content chapterID chapterName locale : Str) (n : Nat) :
    ∀ ch ∈ (splitIntoChunks content chapterID chapterName locale n).1,
      (ch.Section = "Introduction".data ∧
        (ch.Content.length ≤ 1000 ∨
          (ch.Content.length = 1003 ∧ "...".data <:+ ch.Content))) ∨
      ch.Content.length ≤ 1002 ∨ hasNlNl ch.Content = false := by
  intro ch h
  by_cases hintro : trimSpace (intercalateNl (splitH2 (splitLines content)).1) = []
  · rw [show (splitIntoChunks content chapterID chapterName locale n).1 =
        (sectionChunks chapterID chapterName locale (splitH2 (splitLines content)).2 n).1 from by
      simp [splitIntoChunks, hintro]] at h
    exact Or.inr (sectionChunks_bound _ _ _ _ _ ch h)
  · rw [show (splitIntoChunks content chapterID chapterName locale n).1 =
        { ID := chunkIdStr (n + 1), ChapterID := chapterID, ChapterName := chapterName,
          Section := "Introduction".data,
          Content := truncateContent
            (trimSpace (intercalateNl (splitH2 (splitLines content)).1)) 1000,
          Embedding := [], Locale := locale } ::
        (sectionChunks chapterID chapterName locale
          (splitH2 (splitLines content)).2 (n + 1)).1 from by
      simp [splitIntoChunks, hintro]] at h
    rcases List.mem_cons.mp h with rfl | h
    · left
      exact ⟨rfl, truncateContent_cases _ 1000⟩
    · exact Or.inr (sectionChunks_bound _ _ _ _ _ ch h)

/-- C1 witness: a one-line body yields exactly the "Introduction" chunk,
and the theorem applies to it. -/
theorem splitIntoChunks_bound_witness :
    ((⟨"chunk_1".data, "c".data, "C".data, "Introduction".data, "hello".data, [],
        "en".data⟩ : Chunk).Section = "Introduction".data ∧
      ((⟨"chunk_1".data, "c".data, "C".data, "Introduction".data, "hello".data, [],
        "en".data⟩ : Chunk).Content.length ≤ 1000 ∨
        ((⟨"chunk_1".data, "c".data, "C".data, "Introduction".data, "hello".data, [],
          "en".data⟩ : Chunk).Content.length = 1003 ∧
          "...".data <:+ (⟨"chunk_1".data, "c".data, "C".data, "Introduction".data,
            "hello".data, [], "en".data⟩ : Chunk).Content))) ∨
    (⟨"chunk_1".data, "c".data, "C".data, "Introduction".data, "hello".data, [],
      "en".data⟩ : Chunk).Content.length ≤ 1002 ∨
    hasNlNl (⟨"chunk_1".data, "c".data, "C".data, "Introduction".data, "hello".data, [],
      "en".data⟩ : Chunk).Content = false :=
  splitIntoChunks_bound "hello".data "c".data "C".data "en".data 0
    ⟨"chunk_1".data, "c".data, "C".data, "Introduction".data, "hello".data, [], "en".data⟩
    (by decide)

set_option maxRecDepth 100000 in
/-- C1, counterexample: a section of two 500-unit paragraphs is flushed as
one 1002-unit chunk — the splitter's check `len(current)+len(p) > maxLen`
ignores the two-unit "\n\n" separator it then inserts — so a non-
"Introduction" chunk exceeds the configured maximum of 1000. -/
theorem splitIntoChunks_overflow_counterexample :
    ∃ ch ∈ (splitIntoChunks
        ("## A\n".data ++ List.replicate 500 'a' ++ '\n' :: '\n' :: List.replicate 500 'b')
        "c".data "C".data "en".data 0).1,
      ch.Section ≠ "Introduction".data ∧ 1000 < ch.Content.length ∧
      ch.Content.length = 1002 := by
  decide

/-! Chunk identifiers (claim C3). -/

theorem emitFrags_length (cid cn loc t : Str) (total : Nat) :
    ∀ (cs : List Str) (n j : Nat), (emitFrags cid cn loc t total cs n j).length = cs.length
  | [], _, _ => rfl
  | c :: cs, n, j => by
    simp only [emitFrags, List.length_cons]
    rw [emitFrags_length cid cn loc t total cs (n + 1) (j + 1)]

theorem emitFrags_ids (cid cn loc t : Str) (total : Nat) :
    ∀ (cs : List Str) (n j : Nat),
      (emitFrags cid cn loc t total cs n j).map (fun c => c.ID) =
        (List.range' (n + 1) cs.length).map chunkIdStr
  | [], _, _ => by simp [emitFrags]
  | c :: cs, n, j => by
    simp only [emitFrags, List.map_cons, List.length_cons, List.range'_succ]
    rw [emitFrags_ids cid cn loc t total cs (n + 1) (j + 1)]

theorem sectionChunks_spec (cid cn loc : Str) :
    ∀ (secs : List (Str × List Str)) (n : Nat),
      (sectionChunks cid cn loc secs n).2 = n + (sectionChunks cid cn loc secs n).1.length ∧
      (sectionChunks cid cn loc secs n).1.map (fun c => c.ID) =
        (List.range' (n + 1) (sectionChunks cid cn loc secs n).1.length).map chunkIdStr
  | [], n => by simp [sectionChunks]
  | (t, bl) :: rest, n => by
    by_cases hsc : trimSpace (intercalateNl bl) = []
    · rw [show sectionChunks cid cn loc ((t, bl) :: rest) n =
          sectionChunks cid cn loc rest n from by simp [sectionChunks, hsc]]
      exact sectionChunks_spec cid cn loc rest n
    · have hunf : sectionChunks cid cn loc ((t, bl) :: rest) n =
          (emitFrags cid cn loc t (splitLongContent (trimSpace (intercalateNl bl)) 1000).length
              (splitLongContent (trimSpace (intercalateNl bl)) 1000) n 0 ++
            (sectionChunks cid cn loc rest
              (n + (splitLongContent (trimSpace (intercalateNl bl)) 1000).length)).1,
            (sectionChunks cid cn loc rest
              (n + (splitLongContent (trimSpace (intercalateNl bl)) 1000).length)).2) := by
        simp [sectionChunks, hsc]
      obtain ⟨ih1, ih2⟩ := sectionChunks_spec cid cn loc rest
        (n + (splitLongContent (trimSpace (intercalateNl bl)) 1000).length)
    -- abbreviations for readability of the remaining algebra
      rw [hunf]
      simp only [List.length_append, List.map_append,
        emitFrags_length cid cn loc t _ _ n 0, emitFrags_ids cid cn loc t _ _ n 0]
      constructor
      · omega
      · rw [ih2]
        rw [show n + (splitLongContent (trimSpace (intercalateNl bl)) 1000).length + 1 =
            n + 1 + (splitLongContent (trimSpace (intercalateNl bl)) 1000).length from by omega]
        rw [← List.map_append, List.range'_append_1]
        congr 2
        omega

theorem splitIntoChunks_spec (content cid cn loc : Str) (n : Nat) :
    (splitIntoChunks content cid cn loc n).2 =
      n + (splitIntoChunks content cid cn loc n).1.length ∧
    (splitIntoChunks content cid cn loc n).1.map (fun c => c.ID) =
      (List.range' (n + 1) (splitIntoChunks content cid cn loc n).1.length).map chunkIdStr := by
  by_cases hintro : trimSpace (intercalateNl (splitH2 (splitLines content)).1) = []
  · rw [show splitIntoChunks content cid cn loc n =
        ((sectionChunks cid cn loc (splitH2 (splitLines content)).2 n).1,
          (sectionChunks cid cn loc (splitH2 (splitLines content)).2 n).2) from by
      simp [splitIntoChunks, hintro]]
    exact sectionChunks_spec cid cn loc (splitH2 (splitLines content)).2 n
  · rw [show splitIntoChunks content cid cn loc n =
        ({ ID := chunkIdStr (n + 1), ChapterID := cid, ChapterName := cn,
           Section := "Introduction".data,
           Content := truncateContent
             (trimSpace (intercalateNl (splitH2 (splitLines content)).1)) 1000,
           Embedding := [], Locale := loc } ::
          (sectionChunks cid cn loc (splitH2 (splitLines content)).2 (n + 1)).1,
          (sectionChunks cid cn loc (splitH2 (splitLines content)).2 (n + 1)).2) from by
      simp [splitIntoChunks, hintro]]
    obtain ⟨ih1, ih2⟩ := sectionChunks_spec cid cn loc (splitH2 (splitLines content)).2 (n + 1)
    constructor
    · simp only [List.length_cons]
      omega
    · simp only [List.map_cons, List.length_cons, List.range'_succ, ih2]

theorem buildChaptersLoop_spec (loc : Str) :
    ∀ (chs : List Chapter) (n : Nat),
      (buildChaptersLoop loc chs n).2 = n + (buildChaptersLoop loc chs n).1.length ∧
      (buildChaptersLoop loc chs n).1.map (fun c => c.ID) =
        (List.range' (n + 1) (buildChaptersLoop loc chs n).1.length).map chunkIdStr
  | [], n => by simp [buildChaptersLoop]
  | ch :: rest, n => by
    obtain ⟨h1, h2⟩ := splitIntoChunks_spec ch.Content ch.ID ch.Name loc n
    obtain ⟨ih1, ih2⟩ := buildChaptersLoop_spec loc rest
      (splitIntoChunks ch.Content ch.ID ch.Name loc n).2
    rw [show buildChaptersLoop loc (ch :: rest) n =
        ((splitIntoChunks ch.Content ch.ID ch.Name loc n).1 ++
          (buildChaptersLoop loc rest (splitIntoChunks ch.Content ch.ID ch.Name loc n).2).1,
          (buildChaptersLoop loc rest (splitIntoChunks ch.Content ch.ID ch.Name loc n).2).2) from by
      simp [buildChaptersLoop]]
    simp only [List.length_append, List.map_append]
    constructor
    · omega
    · rw [h2, ih2, h1]
      rw [show n + (splitIntoChunks ch.Content ch.ID ch.Name loc n).1.length + 1 =
          n + 1 + (splitIntoChunks ch.Content ch.ID ch.Name loc n).1.length from by omega]
      rw [← List.map_append, List.range'_append_1]
      congr 2
      omega

theorem buildLocalesLoop_spec :
    ∀ (lcs : List (Str × List Chapter)) (n : Nat),
      (buildLocalesLoop lcs n).2 = n + (buildLocalesLoop lcs n).1.length ∧
      (buildLocalesLoop lcs n).1.map (fun c => c.ID) =
        (List.range' (n + 1) (buildLocalesLoop lcs n).1.length).map chunkIdStr
  | [], n => by simp [buildLocalesLoop]
  | (loc, chs) :: rest, n => by
    obtain ⟨h1, h2⟩ := buildChaptersLoop_spec loc chs n
    obtain ⟨ih1, ih2⟩ := buildLocalesLoop_spec rest (buildChaptersLoop loc chs n).2
    rw [show buildLocalesLoop ((loc, chs) :: rest) n =
        ((buildChaptersLoop loc chs n).1 ++
          (buildLocalesLoop rest (buildChaptersLoop loc chs n).2).1,
          (buildLocalesLoop rest (buildChaptersLoop loc chs n).2).2) from by
      simp [buildLocalesLoop]]
    simp only [List.length_append, List.map_append]
    constructor
    · omega
    · rw [h2, ih2, h1]
      rw [show n + (buildChaptersLoop loc chs n).1.length + 1 =
          n + 1 + (buildChaptersLoop loc chs n).1.length from by omega]
      rw [← List.map_append, List.range'_append_1]
      congr 2
      omega

theorem chain'_lt_range' : ∀ (n s : Nat), (List.range' s n).Chain' (· < ·)
  | 0, s => by simp
  | n + 1, s => by
    rw [List.range'_succ, List.chain'_cons']
    refine ⟨?_, chain'_lt_range' n (s + 1)⟩
    intro y hy
    cases n with
    | zero => simp at hy
    | succ m =>
      rw [List.range'_succ] at hy
      simp only [List.head?_cons, Option.mem_def, Option.some.injEq] at hy
      omega

/-- C3 (amended): within one index-build invocation the chunk identifier
counter is shared across all documents and locales and the numeric
identifiers are strictly increasing — they are exactly chunk_1 … chunk_N —
but the counter is a local variable initialized to zero on every
invocation, so identifiers are not unique across separate invocations. -/
theorem buildIndexChunks_ids (lcs : List (Str × List Chapter)) :
    ∃ ns : List Nat, ns.Chain' (· < ·) ∧
      (buildIndexChunks lcs).map (fun c => c.ID) = ns.map chunkIdStr ∧
      ns = List.range' 1 (buildIndexChunks lcs).length := by
  refine ⟨List.range' 1 (buildIndexChunks lcs).length,
    chain'_lt_range' _ 1, ?_, rfl⟩
  exact (buildLocalesLoop_spec lcs 0).2

/-- C3, counterexample: the counter restarts at zero on every invocation of
the index build, so two separate invocations — here over two different
corpora — both produce a chunk with identifier "chunk_1"; identifiers are
not unique for the process lifetime. -/
theorem buildIndexChunks_restart_counterexample :
    (buildIndexChunks
        [("en".data, [⟨"c1".data, 1, "C1".data, "en".data, [], "hello".data, []⟩])]).map
      (fun c => c.ID) = ["chunk_1".data] ∧
    (buildIndexChunks
        [("es".data, [⟨"c2".data, 1, "C2".data, "es".data, [], "hola".data, []⟩])]).map
      (fun c => c.ID) = ["chunk_1".data] ∧
    "c1".data ≠ "c2".data :=
  ⟨by decide, by decide, by decide⟩

/-! Front-matter parsing: `Parser.parseFrontmatter` and `cleanArrayToJSON`
(src/internal/book/parser.go).  The strict JSON decoding performed by
`encoding/json.Unmarshal` is an external library call and is modelled as a
parameter `decode`; everything else follows the source. -/

/-- `frontmatter` (parser.go). -/
structure Frontmatter where
  ID : Str
  Order : Int
  Name : Str
  TitleList : List Section
deriving DecidableEq

/-- The two parse failures of `parseFrontmatter`. -/
inductive ParseErr where
  | noFrontmatter
  | notClosed
deriving DecidableEq

/-- Go `strings.Index(s, sub)`: index of the leftmost occurrence. -/
def findSubstr (sub : Str) : Str → Option Nat
  | [] => if sub.isPrefixOf ([] : Str) then some 0 else none
  | c :: t =>
    if sub.isPrefixOf (c :: t) then some 0
    else (findSubstr sub t).map (· + 1)

/-- Is the character one of the two quote characters of `['"]`? -/
def isQuote (c : Char) : Bool := c = '\'' || c = '"'

/-- Try to match `key\s*['"]([^'"]+)['"]` at the start of `s` (the `key`
already contains the trailing colon); return the captured group. -/
def tryQuotedAt (key : Str) (s : Str) : Option Str :=
  if key.isPrefixOf s then
    match (s.drop key.length).dropWhile reIsSpace with
    | q :: r =>
      if isQuote q then
        let tok := r.takeWhile (fun c => !isQuote c)
        let after := r.dropWhile (fun c => !isQuote c)
        if tok ≠ [] ∧ after ≠ [] then some tok else none
      else none
    | [] => none
  else none

/-- `regexp.FindStringSubmatch` for `key\s*['"]([^'"]+)['"]`: leftmost
match, first capture group. -/
def extractQuoted (key : Str) : Str → Option Str
  | [] => tryQuotedAt key []
  | c :: t =>
    match tryQuotedAt key (c :: t) with
    | some v => some v
    | none => extractQuoted key t

/-- Try to match `order:\s*(\d+)` at the start of `s`. -/
def tryOrderAt (s : Str) : Option Str :=
  if "order:".data.isPrefixOf s then
    let ds := ((s.drop 6).dropWhile reIsSpace).takeWhile Char.isDigit
    if ds ≠ [] then some ds else none
  else none

/-- `regexp.FindStringSubmatch` for `order:\s*(\d+)`: leftmost match. -/
def extractOrder : Str → Option Str
  | [] => none
  | c :: t =>
    match tryOrderAt (c :: t) with
    | some v => some v
    | none => extractOrder t

/-- `strconv.Atoi` on a run of digits. -/
def digitsToNat (l : Str) : Nat := l.foldl (fun acc c => acc * 10 + (c.toNat - 48)) 0

/-- The bracket-depth walk locating the end of the `titleList` array:
count `[` and `]` from the opening bracket; the walk ends one past the `]`
that returns the count to zero (`none` when it never does). -/
def bracketWalk : Str → Int → Nat → Option Nat
  | [], _, _ => none
  | c :: t, d, k =>
    if c = '[' then bracketWalk t (d + 1) (k + 1)
    else if c = ']' then
      if d - 1 = 0 then some (k + 1) else bracketWalk t (d - 1) (k + 1)
    else bracketWalk t d (k + 1)

/-- One fuelled pass of `ReplaceAll` for the regex `(\s)key:` with
replacement `$1"key":` (quote a bare key after whitespace). -/
def quoteKeyGo (key : Str) : Nat → Str → Str
  | 0, s => s
  | _ + 1, [] => []
  | fuel + 1, c :: t =>
    if reIsSpace c ∧ (key ++ [':']).isPrefixOf t then
      [c, '"'] ++ key ++ ['"', ':'] ++ quoteKeyGo key fuel (t.drop (key.length + 1))
    else c :: quoteKeyGo key fuel t

/-- `ReplaceAll` for regex `(\s)key:` → `$1"key":`. -/
def quoteKeyAfterSpace (key s : Str) : Str := quoteKeyGo key s.length s

/-- One fuelled pass of `ReplaceAll` for the regex `{\s*key:` with
replacement `{"key":`. -/
def braceKeyGo (key : Str) : Nat → Str → Str
  | 0, s => s
  | _ + 1, [] => []
  | fuel + 1, c :: t =>
    if c = '\x7b' ∧ (key ++ [':']).isPrefixOf (t.dropWhile reIsSpace) then
      ['\x7b', '"'] ++ key ++ ['"', ':'] ++
        braceKeyGo key fuel ((t.dropWhile reIsSpace).drop (key.length + 1))
    else c :: braceKeyGo key fuel t

/-- `ReplaceAll` for regex `{\s*key:` → `{"key":`. -/
def braceKey (key s : Str) : Str := braceKeyGo key s.length s

/-- `ReplaceAll` for regex `\s+` → `" "`: squeeze whitespace runs. -/
def squeezeWs : Str → Str
  | [] => []
  | [c] => [if reIsSpace c then ' ' else c]
  | a :: b :: rest =>
    if reIsSpace a ∧ reIsSpace b then squeezeWs (b :: rest)
    else (if reIsSpace a then ' ' else a) :: squeezeWs (b :: rest)

/-- `Parser.cleanArrayToJSON`: single quotes become double quotes, bare
`name:`/`tagId:` keys are quoted, whitespace runs are squeezed. -/
def cleanArrayToJSON (content : Str) : Str :=
  squeezeWs (braceKey "tagId".data (braceKey "name".data
    (quoteKeyAfterSpace "tagId".data (quoteKeyAfterSpace "name".data
      (content.map (fun c => if c = '\'' then '"' else c))))))

/-- `Parser.parseFrontmatter`: require the leading `---`, locate the next
`---`, extract the scalar fields by the quoted-value patterns, locate the
`titleList` array by bracket counting, clean it and decode it with the
external decoder — a decode failure silently yields the empty section
list.  `decode` stands for `encoding/json.Unmarshal` into `[]Section`. -/
def parseFrontmatter (decode : Str → Option (List Section)) (content : Str) :
    Except ParseErr (Frontmatter × Str) :=
  if "---".data.isPrefixOf content then
    match findSubstr "---".data (content.drop 3) with
    | none => .error .notClosed
    | some endIndex =>
      let fmContent := (content.drop 3).take endIndex
      let body := trimSpace (content.drop (endIndex + 6))
      let idField := (extractQuoted "id:".data fmContent).getD []
      let order : Int :=
        match extractOrder fmContent with
        | some ds => (digitsToNat ds : Int)
        | none => 0
      let nameField := (extractQuoted "name:".data fmContent).getD []
      let titleList :=
        match findSubstr "titleList:".data fmContent with
        | none => []
        | some tlStart =>
          match findSubstr ['['] (fmContent.drop tlStart) with
          | none => []
          | some arrayStartRel =>
            match bracketWalk (fmContent.drop (tlStart + arrayStartRel)) 0 0 with
            | none => []
            | some len =>
              match decode (cleanArrayToJSON
                  ((fmContent.drop (tlStart + arrayStartRel)).take len)) with
              | some secs => secs
              | none => []
      .ok (⟨idField, order, nameField, titleList⟩, body)
  else .error .noFrontmatter

/-- C7 (amended): for every decoder behaviour and every raw document,
parsing fails exactly for two reasons — the missing leading front-matter
delimiter or an unterminated front-matter block; whenever both delimiters
are present it succeeds, regardless of the section-list literal: a
malformed literal (decoder failure) silently yields a document, never a
ParseError. -/
theorem parseFrontmatter_errors (decode : Str → Option (List Section)) (content : Str) :
    (¬ ("---".data.isPrefixOf content = true) →
      parseFrontmatter decode content = .error .noFrontmatter) ∧
    ("---".data.isPrefixOf content = true →
      findSubstr "---".data (content.drop 3) = none →
      parseFrontmatter decode content = .error .notClosed) ∧
    (∀ endIndex, "---".data.isPrefixOf content = true →
      findSubstr "---".data (content.drop 3) = some endIndex →
      ∃ fm body, parseFrontmatter decode content = .ok (fm, body)) := by
  refine ⟨?_, ?_, ?_⟩
  · intro h
    unfold parseFrontmatter
    rw [if_neg h]
  · intro h1 h2
    unfold parseFrontmatter
    rw [if_pos h1, h2]
  · intro endIndex h1 h2
    unfold parseFrontmatter
    rw [if_pos h1, h2]
    exact ⟨_, _, rfl⟩

/-- C7 witness: a well-delimited document parses successfully even when the
decoder always fails. -/
theorem parseFrontmatter_errors_witness :
    ∃ fm body,
      parseFrontmatter (fun _ => none) "---\nid: 'x'\ntitleList: [\x7d]\n---\nBody".data =
        .ok (fm, body) :=
  (parseFrontmatter_errors (fun _ => none)
      "---\nid: 'x'\ntitleList: [\x7d]\n---\nBody".data).2.2 24 (by decide) (by decide)

/-- C7, counterexample: a document whose section-list literal fails to
decode (the decoder returns `none` on the malformed `[}]`) parses
successfully with an empty section list — it does not fail with a
ParseError as the claim demands. -/
theorem parseFrontmatter_malformed_counterexample :
    parseFrontmatter (fun _ => none) "---\nid: 'x'\ntitleList: [\x7d]\n---\nBody".data =
      .ok (⟨"x".data, 0, [], []⟩, "Body".data) := by
  rfl

/-! Vector store and semantic engine (src/unnamed/part_001): `VectorStore.Search`,
`cosineSimilarity`, `SemanticEngine.IndexChunks`, `SemanticEngine.Search`.
Scores are real numbers; a `none` result models a Go runtime panic. -/

/-- `embeddings.SemanticResult`. -/
structure SemanticResult where
  ChapterID : Str
  ChapterName : Str
  Section : Str
  Content : Str
  Score : ℝ
  Locale : Str

/-- The running accumulations of the `cosineSimilarity` loop:
`dotProduct += a[i]*b[i]` (and the two squared norms, via `dotQ a a` and
`dotQ b b`). -/
def dotQ (a b : List ℚ) : ℚ := (List.zipWith (fun x y => x * y) a b).sum

/-- `cosineSimilarity(a, b)`: 0 when the lengths differ or either norm is
zero, otherwise dot(a,b)/(‖a‖·‖b‖). -/
noncomputable def cosineSimilarity (a b : List ℚ) : ℝ :=
  if a.length ≠ b.length then 0
  else
    if dotQ a a = 0 ∨ dotQ b b = 0 then 0
    else (dotQ a b : ℝ) / (Real.sqrt (dotQ a a : ℝ) * Real.sqrt (dotQ b b : ℝ))

/-- The `SemanticResult` built from one stored chunk and its score. -/
noncomputable def mkSemanticResult (q : List ℚ) (c : Chunk) : SemanticResult where
  ChapterID := c.ChapterID
  ChapterName := c.ChapterName
  Section := c.Section
  Content := c.Content
  Score := cosineSimilarity q c.Embedding
  Locale := c.Locale

/-- `VectorStore.Search(queryEmbedding, locale, topK)`: score every stored
chunk whose locale matches the filter (empty filter = all), sort by score
descending with the double swap loop, and slice off the top K.  A negative
`topK` makes the Go slice expression `results[:topK]` panic: modelled as
`none`. -/
noncomputable def storeSearch (chunks : List Chunk) (queryEmbedding : List ℚ)
    (locale : Str) (topK : Int) : Option (List SemanticResult) :=
  let results := (chunks.filter (fun c => decide (locale = [] ∨ c.Locale = locale))).map
    (mkSemanticResult queryEmbedding)
  let sorted := swapSort (fun r : SemanticResult => r.Score) results
  if topK < (sorted.length : Int) then
    if topK < 0 then none
    else some (sorted.take topK.toNat)
  else some sorted

/-- The mutable state of a `SemanticEngine`: its vector store's chunk list
and the indexed flag (the embedding client is passed separately as a
function). -/
structure EngineState where
  store : List Chunk
  isIndexed : Bool
deriving DecidableEq

/-- `NewSemanticEngine` returns an empty store with `isIndexed = false`. -/
def initialEngineState : EngineState := ⟨[], false⟩

/-- Writing one batch of embeddings back into the chunk records
(`chunks[i+j].Embedding = emb`); extra chunks keep their old embedding. -/
def zipEmb : List Chunk → List (List ℚ) → List Chunk
  | cs, [] => cs
  | [], _ :: _ => []
  | c :: cs, e :: es => { c with Embedding := e } :: zipEmb cs es

/-- `fmt.Errorf("error generating embeddings: %w", err)`. -/
def wrapEmbedErr (e : Str) : Str := "error generating embeddings: ".data ++ e

/-- The sequential batch loop of `IndexChunks` (batch size 100), fuelled by
the chunk count: embed each batch of contents in order, write the vectors
back, fail fast on the first provider error.  A provider returning more
vectors than the batch size would write out of range (Go panic, `none`). -/
def indexBatchesGo (f : List Str → Except Str (List (List ℚ))) :
    Nat → List Chunk → Option (Except Str (List Chunk))
  | _, [] => some (.ok [])
  | 0, _ :: _ => none
  | fuel + 1, c :: cs =>
    match f (((c :: cs).take 100).map (fun ch => ch.Content)) with
    | .error e => some (.error e)
    | .ok embs =>
      if embs.length ≤ ((c :: cs).take 100).length then
        match indexBatchesGo f fuel ((c :: cs).drop 100) with
        | none => none
        | some (.error e) => some (.error e)
        | some (.ok rest) => some (.ok (zipEmb ((c :: cs).take 100) embs ++ rest))
      else none

/-- `SemanticEngine.IndexChunks`: embed all chunk contents in fixed
batches; only after every batch succeeded append the whole chunk list to
the store and set `isIndexed`; on failure return the wrapped error with
the state untouched. -/
def indexChunks (f : List Str → Except Str (List (List ℚ))) (st : EngineState)
    (chunks : List Chunk) : Option (EngineState × Except Str Unit) :=
  match indexBatchesGo f chunks.length chunks with
  | none => none
  | some (.error e) => some (st, .error (wrapEmbedErr e))
  | some (.ok embedded) => some (⟨st.store ++ embedded, true⟩, .ok ())

/-- `SemanticEngine.Search`: fail with the not-indexed error while
`isIndexed` is false, otherwise embed the query and delegate to the
store. -/
noncomputable def engineSearch (embed : Str → Except Str (List ℚ)) (st : EngineState)
    (query locale : Str) (topK : Int) : Option (Except Str (List SemanticResult)) :=
  if st.isIndexed = false then
    some (.error "index not built, call IndexChunks first".data)
  else
    match embed query with
    | .error e => some (.error e)
    | .ok qe => (storeSearch st.store qe locale topK).map .ok

/-- C4 (amended): the store's search considers exactly the stored chunks
whose locale matches the filter (all when the filter is empty), scores each
with `cosineSimilarity`, returns a prefix of the non-increasingly sorted
scored list of length at most k (k = 0 gives no results, k at least the
match count gives all of them) — provided k is non-negative; a negative k
makes the Go slice `results[:topK]` panic instead of returning no
results. -/
theorem storeSearch_spec (chunks : List Chunk) (q : List ℚ) (locale : Str) (k : Int)
    (hk : 0 ≤ k) :
    ∃ res sortedAll,
      storeSearch chunks q locale k = some res ∧
      List.Perm sortedAll
        ((chunks.filter (fun c => decide (locale = [] ∨ c.Locale = locale))).map
          (mkSemanticResult q)) ∧
      sortedAll.Pairwise (fun a b => b.Score ≤ a.Score) ∧
      res = sortedAll.take k.toNat ∧
      res.length ≤ k.toNat ∧
      (k = 0 → res = []) ∧
      ((((chunks.filter (fun c => decide (locale = [] ∨ c.Locale = locale))).length : Int) ≤ k) →
        res = sortedAll) := by
  set F := (chunks.filter (fun c => decide (locale = [] ∨ c.Locale = locale))).map
      (mkSemanticResult q) with hF
  set S := swapSort (fun r : SemanticResult => r.Score) F with hS
  have hunf : storeSearch chunks q locale k =
      if k < (S.length : Int) then
        (if k < 0 then none else some (S.take k.toNat))
      else some S := by
    rw [hS, hF]
    rfl
  have hperm : List.Perm S F := by
    rw [hS]
    exact swapSort_perm _ _
  have hsorted : S.Pairwise (fun a b => b.Score ≤ a.Score) := by
    rw [hS]
    exact swapSort_sorted _ _
  have hlenSF : S.length = F.length := hperm.length_eq
  by_cases hcase : k < (S.length : Int)
  · have hres : storeSearch chunks q locale k = some (S.take k.toNat) := by
      rw [hunf, if_pos hcase, if_neg (by omega)]
    refine ⟨S.take k.toNat, S, hres, hperm, hsorted, rfl, List.length_take_le _ _, ?_, ?_⟩
    · intro hk0
      subst hk0
      simp
    · intro hle
      exfalso
      have hFlen : F.length =
          (chunks.filter (fun c => decide (locale = [] ∨ c.Locale = locale))).length := by
        rw [hF]
        exact List.length_map _ _
      omega
  · have hres : storeSearch chunks q locale k = some S := by
      rw [hunf, if_neg hcase]
    have htake : S.take k.toNat = S := List.take_of_length_le (by omega)
    refine ⟨S, S, hres, hperm, hsorted, htake.symm, ?_, ?_, fun _ => rfl⟩
    · omega
    · intro hk0
      subst hk0
      have : S.length = 0 := by omega
      exact List.eq_nil_of_length_eq_zero this

/-- C4 witness: the theorem applied at a concrete store and k = 0. -/
theorem storeSearch_spec_witness :
    ∃ res sortedAll,
      storeSearch [] [] [] 0 = some res ∧
      List.Perm sortedAll
        ((([] : List Chunk).filter
            (fun c => decide (([] : Str) = [] ∨ c.Locale = ([] : Str)))).map
          (mkSemanticResult [])) ∧
      sortedAll.Pairwise (fun a b => b.Score ≤ a.Score) ∧
      res = sortedAll.take (0 : Int).toNat ∧
      res.length ≤ (0 : Int).toNat ∧
      ((0 : Int) = 0 → res = []) ∧
      ((((([] : List Chunk).filter
            (fun c => decide (([] : Str) = [] ∨ c.Locale = ([] : Str)))).length : Int) ≤ 0) →
        res = sortedAll) :=
  storeSearch_spec [] [] [] 0 (le_refl 0)

/-- C4, counterexample: a negative k does not yield "no results": every
search with k < 0 hits the out-of-range slice `results[:topK]` and panics
(modelled as `none`), even over an empty store. -/
theorem storeSearch_negative_k_counterexample :
    storeSearch [] [] [] (-1) = none := by
  have hunf : storeSearch [] [] [] (-1) =
      if (-1 : Int) < (((swapSort (fun r : SemanticResult => r.Score)
          ((([] : List Chunk).filter
              (fun c => decide (([] : Str) = [] ∨ c.Locale = ([] : Str)))).map
            (mkSemanticResult [])))).length : Int) then
        (if (-1 : Int) < 0 then none
         else some ((swapSort (fun r : SemanticResult => r.Score)
          ((([] : List Chunk).filter
              (fun c => decide (([] : Str) = [] ∨ c.Locale = ([] : Str)))).map
            (mkSemanticResult []))).take (-1 : Int).toNat))
      else some (swapSort (fun r : SemanticResult => r.Score)
          ((([] : List Chunk).filter
              (fun c => decide (([] : Str) = [] ∨ c.Locale = ([] : Str)))).map
            (mkSemanticResult []))) := rfl
  rw [hunf]
  norm_num [swapSort, swapSortGo]

/-- C2 (amended): whenever `IndexChunks` returns an error — in particular
when a batch after the first fails — the engine state is exactly what it
was before the call: the vector store does not contain the chunks of any
batch, completed or not, and the indexed flag keeps its prior value. -/
theorem indexChunks_failure (f : List Str → Except Str (List (List ℚ)))
    (st : EngineState) (chunks : List Chunk) (e : Str) (st' : EngineState)
    (h : indexChunks f st chunks = some (st', .error e)) :
    st' = st ∧ st'.store = st.store ∧ st'.isIndexed = st.isIndexed := by
  unfold indexChunks at h
  cases hb : indexBatchesGo f chunks.length chunks with
  | none =>
    rw [hb] at h
    simp at h
  | some r =>
    cases r with
    | error e2 =>
      rw [hb] at h
      simp only [Option.some.injEq, Prod.mk.injEq] at h
      refine ⟨h.1.symm, ?_, ?_⟩ <;> rw [h.1.symm]
    | ok emb =>
      rw [hb] at h
      simp at h

/-- A chunk used in the concrete engine scenarios. -/
def testChunk : Chunk :=
  ⟨"chunk_1".data, "c".data, "C".data, "S".data, "x".data, [], "en".data⟩

/-- A batch embedder that succeeds on full batches of 100 and fails on any
other batch size: the first batch of 101 chunks succeeds, the second
fails. -/
def failingBatcher : List Str → Except Str (List (List ℚ)) :=
  fun ts => if ts.length = 100 then .ok (ts.map (fun _ => [1])) else .error "boom".data

/-- C2 witness: the theorem applied to a 101-chunk call whose second batch
fails, starting from a non-trivial prior state. -/
theorem indexChunks_failure_witness :
    (⟨[testChunk], true⟩ : EngineState) = ⟨[testChunk], true⟩ ∧
    (⟨[testChunk], true⟩ : EngineState).store = (⟨[testChunk], true⟩ : EngineState).store ∧
    (⟨[testChunk], true⟩ : EngineState).isIndexed =
      (⟨[testChunk], true⟩ : EngineState).isIndexed :=
  indexChunks_failure failingBatcher ⟨[testChunk], true⟩ (List.replicate 101 testChunk)
    (wrapEmbedErr "boom".data) ⟨[testChunk], true⟩ (by rfl)

/-- C2, counterexample: with 101 chunks (two batches) and an embedder that
succeeds on the first batch of 100 and fails on the second, the store after
the failed call is unchanged — empty, not holding the 100 chunks of the
completed first batch — and the indexed flag keeps its prior value. -/
theorem indexChunks_partial_counterexample :
    indexChunks failingBatcher ⟨[], false⟩ (List.replicate 101 testChunk) =
      some (⟨[], false⟩, .error (wrapEmbedErr "boom".data)) ∧
    failingBatcher (((List.replicate 101 testChunk).take 100).map (fun c => c.Content)) =
      .ok (List.replicate 100 [1]) ∧
    ((List.replicate 101 testChunk).take 100).length = 100 ∧
    (⟨[], false⟩ : EngineState).store.length = 0 :=
  ⟨by rfl, by rfl, by decide, rfl⟩

/-- C9: while the indexed flag is false — as in the state produced by
`NewSemanticEngine`, before any successful `IndexChunks` — semantic search
fails with the not-indexed error and never returns a success (empty or
otherwise); once the flag is true it embeds the query and delegates to the
vector store's search. -/
theorem engineSearch_spec (embed : Str → Except Str (List ℚ)) (chunks : List Chunk)
    (query locale : Str) (topK : Int) :
    engineSearch embed ⟨chunks, false⟩ query locale topK =
      some (.error "index not built, call IndexChunks first".data) ∧
    (∀ res, engineSearch embed ⟨chunks, false⟩ query locale topK ≠ some (.ok res)) ∧
    engineSearch embed initialEngineState query locale topK =
      some (.error "index not built, call IndexChunks first".data) ∧
    engineSearch embed ⟨chunks, true⟩ query locale topK =
      (match embed query with
        | .error e => some (.error e)
        | .ok qe => (storeSearch chunks qe locale topK).map .ok) := by
  refine ⟨rfl, ?_, rfl, rfl⟩
  intro res hres
  rw [show engineSearch embed ⟨chunks, false⟩ query locale topK =
      some (.error "index not built, call IndexChunks first".data) from rfl] at hres
  simp at hres

/-- C9 witness: the theorem applied at a concrete embedder, store and
arguments. -/
theorem engineSearch_spec_witness :
    engineSearch (fun _ => .ok [1]) ⟨[testChunk], false⟩ "q".data "en".data 5 =
      some (.error "index not built, call IndexChunks first".data) ∧
    (∀ res, engineSearch (fun _ => .ok [1]) ⟨[testChunk], false⟩ "q".data "en".data 5 ≠
      some (.ok res)) ∧
    engineSearch (fun _ => .ok [1]) initialEngineState "q".data "en".data 5 =
      some (.error "index not built, call IndexChunks first".data) ∧
    engineSearch (fun _ => .ok [1]) ⟨[testChunk], true⟩ "q".data "en".data 5 =
      (match (fun (_ : Str) => (.ok [1] : Except Str (List ℚ))) "q".data with
        | .error e => some (.error e)
        | .ok qe => (storeSearch [testChunk] qe "en".data 5).map .ok) :=
  engineSearch_spec (fun _ => .ok [1]) [testChunk] "q".data "en".data 5

end BookMCP
